import Mathlib

/-!
Verification of the azalea Minecraft client library against its specification.

This file shallowly embeds the Rust code of the repository in Lean 4 and proves
(or refutes) the specification claims about it.  Machine integers are modelled
as `Nat` with explicit truncation (`% 2 ^ 64`) where overflow matters; `f32`/`f64`
quantities that only ever flow through field arithmetic and comparisons are
modelled as exact rationals; fallible operations return `Option`/`Except`.
Shift amounts are reduced modulo the word size, matching the wrapping semantics
of release-mode Rust (and of the Java code this library ports).
-/

/-! ## 64-bit word helpers (u64 semantics), for `azalea-core/src/bitset.rs` -/

/-- The modulus of `u64` arithmetic. -/
def u64Size : Nat := 2 ^ 64

/-- `u64::MAX`. -/
def u64Max : Nat := 2 ^ 64 - 1

/-- u64 left shift `x << s`: the shift amount wraps modulo 64 and the result is
truncated to 64 bits. -/
def u64Shl (x s : Nat) : Nat := (x <<< (s % 64)) % u64Size

/-- u64 right shift `x >> s`: the shift amount wraps modulo 64. -/
def u64Shr (x s : Nat) : Nat := x >>> (s % 64)

/-- u64 bitwise complement `!x`. -/
def u64Not (x : Nat) : Nat := u64Max ^^^ x

/-! ## `BitSet` (azalea-core/src/bitset.rs)

`pub struct BitSet { data: Vec<u64> }` with `new`, `index`, `clear`, `set`, `len`. -/

/-- Represents Java's BitSet, a list of bits (`azalea_core::BitSet`). -/
structure BitSet where
  data : List Nat
deriving Repr, DecidableEq

namespace BitSet

/-- `BitSet::new(size)`: `vec![0; size.div_ceil(64)]`. -/
def new (size : Nat) : BitSet :=
  ⟨List.replicate ((size + 63) / 64) 0⟩

/-- `BitSet::index(i)`: `(self.data[index / 64] & (1u64 << (index % 64))) != 0`.
Out-of-range words read as 0 (Rust would panic there; the claims only quantify
over indices within capacity). -/
def index (bs : BitSet) (i : Nat) : Bool :=
  (bs.data.getD (i / 64) 0) &&& (1 <<< (i % 64)) != 0

/-- `BitSet::word_index(bit_index)`: `bit_index >> 6`. -/
def word_index (bit_index : Nat) : Nat := bit_index >>> 6

/-- `BitSet::len()`: `self.data.len() * 64` (the capacity in bits). -/
def len (bs : BitSet) : Nat := bs.data.length * 64

/-- `BitSet::set(bit_index)`: `self.data[bit_index / 64] |= 1u64 << (bit_index % 64)`. -/
def set (bs : BitSet) (bit_index : Nat) : BitSet :=
  ⟨bs.data.set (bit_index / 64)
    ((bs.data.getD (bit_index / 64) 0) ||| (1 <<< (bit_index % 64)))⟩

/-- The multi-word branch of `BitSet::clear` (`start_word_index < end_word_index`):
clear the tail of the first word, zero the intermediate words, clear the head of
the last word. -/
def clearMulti (data : List Nat) (sW eW fMask lMask : Nat) : List Nat :=
  let d1 := data.set sW ((data.getD sW 0) &&& u64Not fMask)
  let d2 := (List.range' (sW + 1) (eW - (sW + 1))).foldl (fun d i => d.set i 0) d1
  d2.set eW ((d2.getD eW 0) &&& u64Not lMask)

/-- `BitSet::clear(from_index, to_index)`.  Mirrors the Rust code; the
`check_range` assertion (`from_index <= to_index`) is a caller obligation and
appears as a hypothesis of the theorems about `clear`. -/
def clear (bs : BitSet) (from_index to_index : Nat) : BitSet :=
  if from_index = to_index then bs
  else
    let start_word_index := word_index from_index
    if bs.data.length ≤ start_word_index then bs
    else
      let end0 := word_index (to_index - 1)
      let to_index2 := if bs.data.length ≤ end0 then bs.len else to_index
      let end_word_index := if bs.data.length ≤ end0 then bs.data.length - 1 else end0
      let first_word_mask := u64Shl u64Max from_index
      let last_word_mask := u64Shr u64Max (64 - to_index2 % 64)
      if start_word_index = end_word_index then
        ⟨bs.data.set start_word_index
          ((bs.data.getD start_word_index 0) &&& u64Not (first_word_mask &&& last_word_mask))⟩
      else
        ⟨clearMulti bs.data start_word_index end_word_index first_word_mask last_word_mask⟩

end BitSet

/-! ## Bit-level lemmas for `BitSet` -/

theorem and_one_shl_ne_zero (x k : Nat) : (x &&& (1 <<< k) != 0) = x.testBit k := by
  rw [Nat.one_shiftLeft]
  by_cases h : x.testBit k
  · have hbit : (x &&& 2 ^ k).testBit k = true := by
      rw [Nat.testBit_land, h, Nat.testBit_two_pow]; simp
    have hne : x &&& 2 ^ k ≠ 0 := by
      intro h0; rw [h0] at hbit; simp [Nat.zero_testBit] at hbit
    simp [h, hne]
  · have h0 : x &&& 2 ^ k = 0 := by
      apply Nat.eq_of_testBit_eq
      intro i
      rw [Nat.testBit_land, Nat.testBit_two_pow, Nat.zero_testBit]
      rcases eq_or_ne k i with rfl | hne
      · simp_all
      · simp [hne]
    simp [h, h0]

theorem BitSet.index_eq_testBit (bs : BitSet) (i : Nat) :
    bs.index i = (bs.data.getD (i / 64) 0).testBit (i % 64) := by
  rw [BitSet.index, and_one_shl_ne_zero]

theorem testBit_u64Shl_max (s j : Nat) (hj : j < 64) :
    (u64Shl u64Max s).testBit j = decide (s % 64 ≤ j) := by
  rw [u64Shl, u64Max, u64Size, Nat.testBit_mod_two_pow, Nat.testBit_shiftLeft,
    Nat.testBit_two_pow_sub_one]
  have h64 : s % 64 < 64 := Nat.mod_lt _ (by norm_num)
  by_cases h : s % 64 ≤ j
  · simp [hj, h]; omega
  · simp [hj, h]

theorem testBit_u64Shr_max (s j : Nat) :
    (u64Shr u64Max s).testBit j = decide (j + s % 64 < 64) := by
  rw [u64Shr, u64Max, Nat.testBit_shiftRight, Nat.testBit_two_pow_sub_one]
  by_cases h : j + s % 64 < 64
  · simp [h]; omega
  · simp [h]; omega

theorem testBit_u64Not (m j : Nat) (hj : j < 64) :
    (u64Not m).testBit j = !(m.testBit j) := by
  rw [u64Not, u64Max, Nat.testBit_xor, Nat.testBit_two_pow_sub_one]
  simp [hj]

theorem getD_set_eq_ite (l : List Nat) (i j v : Nat) :
    (l.set i v).getD j 0 = if i = j ∧ i < l.length then v else l.getD j 0 := by
  rcases eq_or_ne i j with rfl | hne
  · by_cases h : i < l.length
    · simp [List.getD, List.getElem?_set, h]
    · simp [List.getD, List.getElem?_set, h, List.getElem?_eq_none (le_of_not_lt h)]
  · simp [List.getD, List.getElem?_set_ne hne, hne]

theorem foldl_set_zero_getD (n s : Nat) (l : List Nat) (w : Nat) :
    ((List.range' s n).foldl (fun d i => d.set i 0) l).getD w 0 =
      if s ≤ w ∧ w < s + n ∧ w < l.length then 0 else l.getD w 0 := by
  induction n generalizing s l with
  | zero =>
    simp only [List.range', List.foldl_nil]
    rw [if_neg (by omega)]
  | succ n ih =>
    rw [List.range'_succ, List.foldl_cons, ih]
    rw [getD_set_eq_ite]
    have hlen : (l.set s 0).length = l.length := by simp
    rw [hlen]
    split_ifs with h1 h2 h3 h4 h5 <;> try rfl
    all_goals omega

theorem foldl_set_zero_length (n s : Nat) (l : List Nat) :
    ((List.range' s n).foldl (fun d i => d.set i 0) l).length = l.length := by
  induction n generalizing s l with
  | zero => simp
  | succ n ih => rw [List.range'_succ, List.foldl_cons, ih]; simp

theorem clearMulti_getD (data : List Nat) (sW eW fM lM w : Nat)
    (h1 : sW < eW) (h2 : eW < data.length) :
    (BitSet.clearMulti data sW eW fM lM).getD w 0 =
      if w = sW then (data.getD sW 0) &&& u64Not fM
      else if sW < w ∧ w < eW then 0
      else if w = eW then (data.getD eW 0) &&& u64Not lM
      else data.getD w 0 := by
  simp only [BitSet.clearMulti]
  have hd1 : ∀ x, (data.set sW ((data.getD sW 0) &&& u64Not fM)).getD x 0 =
      if sW = x ∧ sW < data.length then (data.getD sW 0) &&& u64Not fM
      else data.getD x 0 := fun x => getD_set_eq_ite ..
  have hd2 : ∀ x, ((List.range' (sW + 1) (eW - (sW + 1))).foldl (fun d i => d.set i 0)
        (data.set sW ((data.getD sW 0) &&& u64Not fM))).getD x 0 =
      if sW + 1 ≤ x ∧ x < eW ∧ x < data.length then 0
      else if sW = x ∧ sW < data.length then (data.getD sW 0) &&& u64Not fM
      else data.getD x 0 := by
    intro x
    rw [foldl_set_zero_getD, List.length_set, hd1]
    split_ifs <;> first | rfl | omega
  rw [getD_set_eq_ite, foldl_set_zero_length, List.length_set, hd2, hd2]
  split_ifs <;> first | rfl | omega

theorem BitSet.data_mk (l : List Nat) : (BitSet.mk l).data = l := rfl

theorem BitSet.clear_index_eq (bs : BitSet) (a b j : Nat) (hab : a ≤ b) (hj : j < bs.len) :
    (bs.clear a b).index j = if a ≤ j ∧ j < b then false else bs.index j := by
  have hk : j % 64 < 64 := Nat.mod_lt _ (by norm_num)
  have hjw : j / 64 < bs.data.length := by
    rw [BitSet.len] at hj; omega
  have hwa : BitSet.word_index a = a / 64 := by
    rw [BitSet.word_index, Nat.shiftRight_eq_div_pow]
  have hwb : BitSet.word_index (b - 1) = (b - 1) / 64 := by
    rw [BitSet.word_index, Nat.shiftRight_eq_div_pow]
  simp only [BitSet.index_eq_testBit]
  by_cases hab2 : a = b
  · subst hab2
    rw [BitSet.clear, if_pos rfl, if_neg (by omega)]
  · simp only [BitSet.clear, hwa, hwb, BitSet.len, BitSet.data_mk]
    rw [if_neg hab2]
    by_cases hsw : bs.data.length ≤ a / 64
    · rw [if_pos hsw, if_neg (by rw [BitSet.len] at hj; omega)]
    · rw [if_neg hsw]
      by_cases hend : bs.data.length ≤ (b - 1) / 64
      · -- end word clamped: effective clearing range is [a, 64 * len)
        simp only [if_pos hend]
        by_cases hone : a / 64 = bs.data.length - 1
        · -- single word case
          rw [if_pos hone, BitSet.data_mk, getD_set_eq_ite]
          by_cases hw : a / 64 = j / 64 ∧ a / 64 < bs.data.length
          · rw [if_pos hw, Nat.testBit_land, testBit_u64Not _ _ hk, Nat.testBit_land,
              testBit_u64Shl_max _ _ hk, testBit_u64Shr_max]
            by_cases hcond : a ≤ j ∧ j < b
            · rw [if_pos hcond]
              have h1 : a % 64 ≤ j % 64 := by omega
              have h2 : j % 64 + (64 - bs.data.length * 64 % 64) % 64 < 64 := by omega
              simp [h1, h2, hw.1]
              intro _
              omega
            · rw [if_neg hcond]
              have h1 : ¬(a % 64 ≤ j % 64) := by omega
              simp [h1, hw.1]
          · rw [if_neg hw, if_neg (by omega)]
        · rw [if_neg hone, BitSet.data_mk,
            clearMulti_getD _ _ _ _ _ _ (by omega) (by omega)]
          by_cases hw1 : j / 64 = a / 64
          · rw [if_pos hw1, Nat.testBit_land, testBit_u64Not _ _ hk,
              testBit_u64Shl_max _ _ hk]
            by_cases hcond : a ≤ j ∧ j < b
            · rw [if_pos hcond]
              have h1 : a % 64 ≤ j % 64 := by omega
              simp [h1]
            · rw [if_neg hcond]
              have h1 : ¬(a % 64 ≤ j % 64) := by omega
              simp [h1, hw1]
          · rw [if_neg hw1]
            by_cases hw2 : a / 64 < j / 64 ∧ j / 64 < bs.data.length - 1
            · rw [if_pos hw2, if_pos (by omega)]
              simp [Nat.zero_testBit]
            · by_cases hw3 : j / 64 = bs.data.length - 1
              · rw [if_neg hw2, if_pos hw3, Nat.testBit_land, testBit_u64Not _ _ hk,
                  testBit_u64Shr_max, if_pos (by omega)]
                have h2 : j % 64 + (64 - bs.data.length * 64 % 64) % 64 < 64 := by omega
                simp [h2]
                intro _
                omega
              · rw [if_neg hw2, if_neg hw3, if_neg (by omega)]
      · simp only [if_neg hend]
        by_cases hone : a / 64 = (b - 1) / 64
        · -- single word case
          rw [if_pos hone, BitSet.data_mk, getD_set_eq_ite]
          by_cases hw : a / 64 = j / 64 ∧ a / 64 < bs.data.length
          · rw [if_pos hw, Nat.testBit_land, testBit_u64Not _ _ hk, Nat.testBit_land,
              testBit_u64Shl_max _ _ hk, testBit_u64Shr_max]
            by_cases hcond : a ≤ j ∧ j < b
            · rw [if_pos hcond]
              have h1 : a % 64 ≤ j % 64 := by omega
              have h2 : j % 64 + (64 - b % 64) % 64 < 64 := by omega
              simp [h1, h2, hw.1]
            · rw [if_neg hcond]
              have h1 : ¬(a % 64 ≤ j % 64 ∧ j % 64 + (64 - b % 64) % 64 < 64) := by omega
              rcases Decidable.not_and_iff_or_not.mp h1 with h2 | h2 <;>
                simp [h2, hw.1]
          · rw [if_neg hw, if_neg (by omega)]
        · rw [if_neg hone, BitSet.data_mk,
            clearMulti_getD _ _ _ _ _ _ (by omega) (by omega)]
          by_cases hw1 : j / 64 = a / 64
          · rw [if_pos hw1, Nat.testBit_land, testBit_u64Not _ _ hk,
              testBit_u64Shl_max _ _ hk]
            by_cases hcond : a ≤ j ∧ j < b
            · rw [if_pos hcond]
              have h1 : a % 64 ≤ j % 64 := by omega
              simp [h1]
            · rw [if_neg hcond]
              have h1 : ¬(a % 64 ≤ j % 64) := by omega
              simp [h1, hw1]
          · rw [if_neg hw1]
            by_cases hw2 : a / 64 < j / 64 ∧ j / 64 < (b - 1) / 64
            · rw [if_pos hw2, if_pos (by omega)]
              simp [Nat.zero_testBit]
            · by_cases hw3 : j / 64 = (b - 1) / 64
              · rw [if_neg hw2, if_pos hw3, Nat.testBit_land, testBit_u64Not _ _ hk,
                  testBit_u64Shr_max]
                by_cases hcond : a ≤ j ∧ j < b
                · rw [if_pos hcond]
                  have h2 : j % 64 + (64 - b % 64) % 64 < 64 := by omega
                  simp [h2]
                · rw [if_neg hcond]
                  have h2 : ¬(j % 64 + (64 - b % 64) % 64 < 64) := by omega
                  simp [h2, hw3]
              · rw [if_neg hw2, if_neg hw3, if_neg (by omega)]

theorem BitSet.set_index_self (bs : BitSet) (i : Nat) (hi : i < bs.len) :
    (bs.set i).index i = true := by
  rw [BitSet.index_eq_testBit, BitSet.set, BitSet.data_mk, getD_set_eq_ite,
    if_pos ⟨rfl, by rw [BitSet.len] at hi; omega⟩, Nat.testBit_lor, Nat.one_shiftLeft,
    Nat.testBit_two_pow]
  simp

/-- C5: for every `BitSet` and every index `i` within its capacity, after `set(i)` the
call `index(i)` returns `true`; and for every pair `a ≤ b`, `clear(a, b)` makes every bit
with index in `[a, b)` false while leaving every bit outside `[a, b)` unchanged. -/
theorem C5_bitset_set_clear :
    (∀ (bs : BitSet) (i : Nat), i < bs.len → (bs.set i).index i = true) ∧
    (∀ (bs : BitSet) (a b j : Nat), a ≤ b → j < bs.len →
      (a ≤ j → j < b → (bs.clear a b).index j = false) ∧
      (¬(a ≤ j ∧ j < b) → (bs.clear a b).index j = bs.index j)) := by
  refine ⟨BitSet.set_index_self, fun bs a b j hab hj => ⟨fun h1 h2 => ?_, fun h => ?_⟩⟩
  · rw [BitSet.clear_index_eq bs a b j hab hj, if_pos ⟨h1, h2⟩]
  · rw [BitSet.clear_index_eq bs a b j hab hj, if_neg h]

/-- Witness for C5 at a concrete input: bit 65 of a 128-bit set, then a clear
over `[64, 66)` and one over `[64, 65)`. -/
theorem C5_bitset_set_clear_witness :
    ((BitSet.new 128).set 65).index 65 = true ∧
    (((BitSet.new 128).set 65).clear 64 66).index 65 = false ∧
    (((BitSet.new 128).set 65).clear 64 65).index 65 = ((BitSet.new 128).set 65).index 65 := by
  refine ⟨C5_bitset_set_clear.1 _ 65 (by decide), ?_, ?_⟩
  · exact (C5_bitset_set_clear.2 _ 64 66 65 (by decide) (by decide)).1 (by decide) (by decide)
  · exact (C5_bitset_set_clear.2 _ 64 65 65 (by decide) (by decide)).2 (by decide)
/-! ## Pathfinder move primitives (azalea/src/pathfinder/moves.rs)

Block positions, the passability / solidity predicates, `fall_distance` and
`DescendMove::get`.  A world (`azalea_world::Instance`) is reduced to the data
these functions consume: for each position, whether a block is present and how
its collision shape compares to `empty_shape()` / `block_shape()`, plus the
storage's `min_y`. -/

/-- An integer block position (`azalea_core::BlockPos`). -/
structure BlockPos where
  x : Int
  y : Int
  z : Int
deriving DecidableEq, Repr

namespace BlockPos

/-- `BlockPos` addition (componentwise, as the Rust `Add` impl). -/
def add (a b : BlockPos) : BlockPos := ⟨a.x + b.x, a.y + b.y, a.z + b.z⟩

/-- `pos.up(n)`. -/
def up (p : BlockPos) (n : Int) : BlockPos := ⟨p.x, p.y + n, p.z⟩

/-- `pos.down(n)`. -/
def down (p : BlockPos) (n : Int) : BlockPos := ⟨p.x, p.y - n, p.z⟩

end BlockPos

/-- How a block state's collision shape compares to the two distinguished shapes
`collision::empty_shape()` and `collision::block_shape()` used by the move
preconditions. -/
inductive ShapeKind where
  | empty : ShapeKind
  | full : ShapeKind
  | other : ShapeKind
deriving DecidableEq, Repr

/-- The world data consumed by the pathfinder moves: `get_block_state` (with its
shape classification) and `chunks.min_y`. -/
structure WorldModel where
  blocks : BlockPos → Option ShapeKind
  min_y : Int

/-- `is_block_passable`: the block exists and its shape is `empty_shape()`. -/
def is_block_passable (pos : BlockPos) (world : WorldModel) : Bool :=
  match world.blocks pos with
  | some shape => shape = ShapeKind.empty
  | none => false

/-- `is_block_solid`: the block exists and its shape is `block_shape()`. -/
def is_block_solid (pos : BlockPos) (world : WorldModel) : Bool :=
  match world.blocks pos with
  | some shape => shape = ShapeKind.full
  | none => false

/-- `is_passable`: this block and the block above are passable. -/
def is_passable (pos : BlockPos) (world : WorldModel) : Bool :=
  is_block_passable pos world && is_block_passable (pos.up 1) world

/-- `is_standable`: the block below is solid and the two blocks above it are passable. -/
def is_standable (pos : BlockPos) (world : WorldModel) : Bool :=
  is_block_solid (pos.down 1) world && is_passable pos world

/-- `u32::MAX`, returned by `fall_distance` when the fall leaves the world. -/
def u32Max : Nat := 2 ^ 32 - 1

/-- The loop of `fall_distance`: while the current block is passable, add one and
move down; bail out with `u32::MAX` below `min_y`. -/
def fallDistanceGo (world : WorldModel) (current_pos : BlockPos) (distance : Nat) : Nat :=
  if is_block_passable current_pos world then
    if (current_pos.down 1).y < world.min_y then u32Max
    else fallDistanceGo world (current_pos.down 1) (distance + 1)
  else distance
termination_by (current_pos.y - world.min_y).toNat
decreasing_by
  simp only [BlockPos.down] at *
  omega

/-- `fall_distance(pos, world)`: the number of air blocks until the next solid
block below `pos`. -/
def fall_distance (pos : BlockPos) (world : WorldModel) : Nat :=
  fallDistanceGo world (pos.down 1) 0

/-- `MoveData { jump }` attached to a pathfinder edge. -/
structure MoveData where
  jump : Bool
deriving DecidableEq, Repr

/-- A pathfinder movement: a target node plus its `MoveData`. -/
structure PathMovement where
  target : BlockPos
  data : MoveData
deriving DecidableEq, Repr

/-- A pathfinder edge: a movement plus its cost (an `f32` in the source,
modelled as an exact rational). -/
structure PathEdge where
  movement : PathMovement
  cost : ℚ
deriving DecidableEq, Repr

/-- The four cardinal directions parameterising moves. -/
inductive CardinalDirection where
  | north : CardinalDirection
  | east : CardinalDirection
  | south : CardinalDirection
  | west : CardinalDirection
deriving DecidableEq, Repr

namespace CardinalDirection

/-- Modelled from the spec: the x component of a cardinal direction
(`azalea-core`'s `CardinalDirection::x` is not part of the provided sources;
"edges are produced by a fixed enumerated set of `Move`s — each parameterised
by a cardinal direction"). -/
def x : CardinalDirection → Int
  | north => 0
  | east => 1
  | south => 0
  | west => -1

/-- Modelled from the spec: the z component of a cardinal direction (see `x`). -/
def z : CardinalDirection → Int
  | north => -1
  | east => 0
  | south => 1
  | west => 0

end CardinalDirection

/-- `JUMP_COST = 0.5`. -/
def JUMP_COST : ℚ := 1 / 2

/-- `WALK_ONE_BLOCK_COST = 1.0`. -/
def WALK_ONE_BLOCK_COST : ℚ := 1

/-- `FALL_ONE_BLOCK_COST = 0.5`. -/
def FALL_ONE_BLOCK_COST : ℚ := 1 / 2

/-- `DescendMove::get`. -/
def DescendMove.get (dir : CardinalDirection) (world : WorldModel) (node : BlockPos) :
    Option PathEdge :=
  let new_horizontal_position := node.add ⟨dir.x, 0, dir.z⟩
  let fd := fall_distance new_horizontal_position world
  if fd = 0 then none
  else if fd > 3 then none
  else
    let new_position := new_horizontal_position.down (fd : Int)
    -- check whether the blocks vertically forward are passable
    if ¬ is_passable new_horizontal_position world then none
    else
      some ⟨⟨new_position, ⟨false⟩⟩, WALK_ONE_BLOCK_COST + FALL_ONE_BLOCK_COST * (fd : ℚ)⟩

/-- C10: `DescendMove::get` produces an edge only when the fall distance below the
adjacent block is between 1 and 3 inclusive (`None` for a fall distance of 0 or of
more than 3 blocks); when it produces an edge, the target is the landing position
and the cost is 1.0 plus 0.5 per fallen block. -/
theorem C10_descend_move (dir : CardinalDirection) (world : WorldModel) (node : BlockPos) :
    (∀ e, DescendMove.get dir world node = some e →
      1 ≤ fall_distance (node.add ⟨dir.x, 0, dir.z⟩) world ∧
      fall_distance (node.add ⟨dir.x, 0, dir.z⟩) world ≤ 3 ∧
      e.movement.target =
        (node.add ⟨dir.x, 0, dir.z⟩).down (fall_distance (node.add ⟨dir.x, 0, dir.z⟩) world : Int) ∧
      e.cost = 1 + (1 / 2 : ℚ) * (fall_distance (node.add ⟨dir.x, 0, dir.z⟩) world : ℚ)) ∧
    (fall_distance (node.add ⟨dir.x, 0, dir.z⟩) world = 0 →
      DescendMove.get dir world node = none) ∧
    (3 < fall_distance (node.add ⟨dir.x, 0, dir.z⟩) world →
      DescendMove.get dir world node = none) := by
  refine ⟨fun e he => ?_, fun h0 => ?_, fun h3 => ?_⟩
  · rw [DescendMove.get] at he
    split_ifs at he with h1 h2 h3; simp at he
    subst he
    exact ⟨by omega, by omega, rfl, by simp [WALK_ONE_BLOCK_COST, FALL_ONE_BLOCK_COST]⟩
  · rw [DescendMove.get]
    simp [h0]
  · rw [DescendMove.get]
    have h0 : ¬ fall_distance (node.add ⟨dir.x, 0, dir.z⟩) world = 0 := by omega
    simp [h0, h3]

/-- A small world for the C10 witness: everything at `y ≥ 1` is air, the floor at
`y ≤ 0` is full blocks, except a one-block-deep pit at `(1, 0, 0)`. -/
def descendDemoWorld : WorldModel :=
  ⟨fun p =>
    if 1 ≤ p.y ∨ (p.x = 1 ∧ p.y = 0 ∧ p.z = 0) then some ShapeKind.empty
    else some ShapeKind.full, -64⟩

/-- Witness for C10: in `descendDemoWorld`, descending east from `(0, 1, 0)` falls
exactly one block, landing at `(1, 0, 0)` with cost 1.5. -/
theorem C10_descend_move_witness :
    1 ≤ fall_distance (BlockPos.add ⟨0, 1, 0⟩
        ⟨CardinalDirection.east.x, 0, CardinalDirection.east.z⟩) descendDemoWorld ∧
    fall_distance (BlockPos.add ⟨0, 1, 0⟩
        ⟨CardinalDirection.east.x, 0, CardinalDirection.east.z⟩) descendDemoWorld ≤ 3 ∧
    (PathEdge.mk ⟨⟨1, 0, 0⟩, ⟨false⟩⟩ (3 / 2)).movement.target =
      (BlockPos.add ⟨0, 1, 0⟩ ⟨CardinalDirection.east.x, 0, CardinalDirection.east.z⟩).down
        (fall_distance (BlockPos.add ⟨0, 1, 0⟩
          ⟨CardinalDirection.east.x, 0, CardinalDirection.east.z⟩) descendDemoWorld : Int) ∧
    (PathEdge.mk ⟨⟨1, 0, 0⟩, ⟨false⟩⟩ (3 / 2)).cost =
      1 + (1 / 2 : ℚ) * (fall_distance (BlockPos.add ⟨0, 1, 0⟩
        ⟨CardinalDirection.east.x, 0, CardinalDirection.east.z⟩) descendDemoWorld : ℚ) := by
  have hpos : BlockPos.add ⟨0, 1, 0⟩ ⟨CardinalDirection.east.x, 0, CardinalDirection.east.z⟩ =
      (⟨1, 1, 0⟩ : BlockPos) := by decide
  have hfd1 : fall_distance (⟨1, 1, 0⟩ : BlockPos) descendDemoWorld = 1 := by
    rw [fall_distance,
      show ((⟨1, 1, 0⟩ : BlockPos).down 1) = (⟨1, 0, 0⟩ : BlockPos) from by decide,
      fallDistanceGo, if_pos (by decide), if_neg (by decide), fallDistanceGo,
      show ((⟨1, 0, 0⟩ : BlockPos).down 1) = (⟨1, -1, 0⟩ : BlockPos) from by decide,
      if_neg (by decide)]
  have hget : DescendMove.get CardinalDirection.east descendDemoWorld ⟨0, 1, 0⟩ =
      some ⟨⟨⟨1, 0, 0⟩, ⟨false⟩⟩, 3 / 2⟩ := by
    rw [DescendMove.get]
    simp only [hpos, hfd1]
    rw [if_neg (by decide), if_neg (by decide), if_neg (by decide)]
    norm_num [BlockPos.down, WALK_ONE_BLOCK_COST, FALL_ONE_BLOCK_COST]
  exact (C10_descend_move CardinalDirection.east descendDemoWorld ⟨0, 1, 0⟩).1 _ hget
/-! ## `Dimension` entity moves (azalea-world/src/lib.rs)

`set_entity_pos` and `move_entity_with_delta` over the entity storage.  The
`EntityStorage` internals live in `entity_storage.rs`, which is not among the
provided sources; that store is modelled from the spec ("entities live in an
index-addressable store owned by the world; entity handles are integer ids",
with a per-chunk index maintained by `update_entity_chunk`).  Positions are
`f64` triples, modelled as exact rationals. -/

/-- A position (`azalea_core::Vec3`), `f64` components modelled as rationals. -/
structure Vec3 where
  x : ℚ
  y : ℚ
  z : ℚ
deriving DecidableEq, Repr

/-- A chunk coordinate. -/
structure ChunkPos where
  x : Int
  z : Int
deriving DecidableEq, Repr

/-- `ChunkPos::from(&Vec3)`: floor-divide the horizontal coordinates by 16. -/
def ChunkPos.fromVec3 (p : Vec3) : ChunkPos :=
  ⟨Int.floor (p.x / 16), Int.floor (p.z / 16)⟩

/-- Modelled from the spec: `PositionDelta8` (the packed entity-move delta) reduced
to the exact displacement it denotes, and `Vec3::with_delta` adds it componentwise. -/
structure PositionDelta8 where
  xa : ℚ
  ya : ℚ
  za : ℚ
deriving DecidableEq, Repr

/-- `pos.with_delta(delta)`. -/
def Vec3.with_delta (p : Vec3) (d : PositionDelta8) : Vec3 :=
  ⟨p.x + d.xa, p.y + d.ya, p.z + d.za⟩

/-- The entity data tracked by the store, restricted to what the moves touch:
the entity's position. -/
structure EntityData where
  pos : Vec3
deriving DecidableEq, Repr

/-- Modelled from the spec: the id-indexed entity store with its per-chunk index. -/
structure EntityStorage where
  by_id : List (Nat × EntityData)
  by_chunk : List (ChunkPos × List Nat)
deriving DecidableEq, Repr

namespace EntityStorage

/-- `EntityStorage::get_by_id` (first binding for the id). -/
def get_by_id (st : EntityStorage) (id : Nat) : Option EntityData :=
  lookupList st.by_id id
where
  lookupList : List (Nat × EntityData) → Nat → Option EntityData
    | [], _ => none
    | (k, v) :: rest, id => if k = id then some v else lookupList rest id

/-- Overwrite the stored position of entity `id` (the effect of `unsafe_move`). -/
def setPosList : List (Nat × EntityData) → Nat → Vec3 → List (Nat × EntityData)
  | [], _, _ => []
  | (k, v) :: rest, id, p =>
    if k = id then (k, { v with pos := p }) :: rest
    else (k, v) :: setPosList rest id p

/-- The effect of `unsafe_move` on the store: the entity's position is replaced. -/
def unsafe_move (st : EntityStorage) (id : Nat) (p : Vec3) : EntityStorage :=
  { st with by_id := setPosList st.by_id id p }

/-- Modelled from the spec: `update_entity_chunk` moves the id from the old chunk's
bucket to the new chunk's bucket in the per-chunk index. -/
def update_entity_chunk (st : EntityStorage) (id : Nat) (old_chunk new_chunk : ChunkPos) :
    EntityStorage :=
  { st with
    by_chunk :=
      (st.by_chunk.map (fun b => if b.1 = old_chunk then (b.1, b.2.filter (· ≠ id)) else b)).map
        (fun b => if b.1 = new_chunk then (b.1, id :: b.2) else b) }

end EntityStorage

/-- `MoveEntityError`. -/
inductive MoveEntityError where
  | EntityDoesNotExist : MoveEntityError
deriving DecidableEq, Repr

/-- A dimension: chunks and entities.  Chunk block storage plays no role in the
entity-move claims and is omitted. -/
structure Dimension where
  entity_storage : EntityStorage
deriving DecidableEq, Repr

namespace Dimension

/-- `Dimension::set_entity_pos`.  The mutation of `&mut self` is modelled by
returning the result together with the (possibly unchanged) new state. -/
def set_entity_pos (d : Dimension) (entity_id : Nat) (new_pos : Vec3) :
    Except MoveEntityError Unit × Dimension :=
  match d.entity_storage.get_by_id entity_id with
  | none => (.error MoveEntityError.EntityDoesNotExist, d)
  | some entity =>
    let old_chunk := ChunkPos.fromVec3 entity.pos
    let new_chunk := ChunkPos.fromVec3 new_pos
    let st1 := d.entity_storage.unsafe_move entity_id new_pos
    let st2 :=
      if old_chunk ≠ new_chunk then st1.update_entity_chunk entity_id old_chunk new_chunk
      else st1
    (.ok (), { d with entity_storage := st2 })

/-- `Dimension::move_entity_with_delta`. -/
def move_entity_with_delta (d : Dimension) (entity_id : Nat) (delta : PositionDelta8) :
    Except MoveEntityError Unit × Dimension :=
  match d.entity_storage.get_by_id entity_id with
  | none => (.error MoveEntityError.EntityDoesNotExist, d)
  | some entity =>
    let new_pos := entity.pos.with_delta delta
    let old_chunk := ChunkPos.fromVec3 entity.pos
    let new_chunk := ChunkPos.fromVec3 new_pos
    let st1 := d.entity_storage.unsafe_move entity_id new_pos
    let st2 :=
      if old_chunk ≠ new_chunk then st1.update_entity_chunk entity_id old_chunk new_chunk
      else st1
    (.ok (), { d with entity_storage := st2 })

end Dimension

/-! ### Lemmas about the entity store -/

theorem lookupList_setPosList_self (l : List (Nat × EntityData)) (id : Nat) (p : Vec3) :
    EntityStorage.get_by_id.lookupList (EntityStorage.setPosList l id p) id =
      (EntityStorage.get_by_id.lookupList l id).map (fun e => { e with pos := p }) := by
  induction l with
  | nil => rfl
  | cons kv rest ih =>
    rcases kv with ⟨k, v⟩
    by_cases hk : k = id
    · simp [EntityStorage.setPosList, EntityStorage.get_by_id.lookupList, hk]
    · simp [EntityStorage.setPosList, EntityStorage.get_by_id.lookupList, hk, ih]

theorem lookupList_setPosList_other (l : List (Nat × EntityData)) (id j : Nat) (p : Vec3)
    (hne : j ≠ id) :
    EntityStorage.get_by_id.lookupList (EntityStorage.setPosList l id p) j =
      EntityStorage.get_by_id.lookupList l j := by
  induction l with
  | nil => rfl
  | cons kv rest ih =>
    rcases kv with ⟨k, v⟩
    by_cases hk : k = id
    · subst hk
      simp [EntityStorage.setPosList, EntityStorage.get_by_id.lookupList, Ne.symm hne]
    · simp [EntityStorage.setPosList, EntityStorage.get_by_id.lookupList, hk, ih]

theorem get_by_id_unsafe_move_self (st : EntityStorage) (id : Nat) (p : Vec3) :
    (st.unsafe_move id p).get_by_id id =
      (st.get_by_id id).map (fun e => { e with pos := p }) := by
  simp [EntityStorage.unsafe_move, EntityStorage.get_by_id, lookupList_setPosList_self]

theorem get_by_id_unsafe_move_other (st : EntityStorage) (id j : Nat) (p : Vec3) (hne : j ≠ id) :
    (st.unsafe_move id p).get_by_id j = st.get_by_id j := by
  simp [EntityStorage.unsafe_move, EntityStorage.get_by_id, lookupList_setPosList_other _ _ _ _ hne]

theorem get_by_id_update_entity_chunk (st : EntityStorage) (id j : Nat) (oc nc : ChunkPos) :
    (st.update_entity_chunk id oc nc).get_by_id j = st.get_by_id j := by
  simp [EntityStorage.update_entity_chunk, EntityStorage.get_by_id]

/-- C9: `set_entity_pos` and `move_entity_with_delta` return `EntityDoesNotExist`
exactly when no entity with the given id is present; in that case the dimension is
unmodified, and otherwise they return `Ok(())` with the entity moved (to the given
position, resp. by the given delta) and every other entity unchanged. -/
theorem C9_dimension_move_entity (d : Dimension) (id : Nat) (p : Vec3) (delta : PositionDelta8) :
    ((d.set_entity_pos id p).1 = .error MoveEntityError.EntityDoesNotExist ↔
      d.entity_storage.get_by_id id = none) ∧
    (d.entity_storage.get_by_id id = none → (d.set_entity_pos id p).2 = d) ∧
    (∀ e, d.entity_storage.get_by_id id = some e →
      (d.set_entity_pos id p).1 = .ok () ∧
      (d.set_entity_pos id p).2.entity_storage.get_by_id id = some { e with pos := p } ∧
      ∀ j, j ≠ id → (d.set_entity_pos id p).2.entity_storage.get_by_id j =
        d.entity_storage.get_by_id j) ∧
    ((d.move_entity_with_delta id delta).1 = .error MoveEntityError.EntityDoesNotExist ↔
      d.entity_storage.get_by_id id = none) ∧
    (d.entity_storage.get_by_id id = none → (d.move_entity_with_delta id delta).2 = d) ∧
    (∀ e, d.entity_storage.get_by_id id = some e →
      (d.move_entity_with_delta id delta).1 = .ok () ∧
      (d.move_entity_with_delta id delta).2.entity_storage.get_by_id id =
        some { e with pos := e.pos.with_delta delta } ∧
      ∀ j, j ≠ id → (d.move_entity_with_delta id delta).2.entity_storage.get_by_id j =
        d.entity_storage.get_by_id j) := by
  rcases hid : d.entity_storage.get_by_id id with _ | e0
  · refine ⟨?_, ?_, ?_, ?_, ?_, ?_⟩ <;>
      simp [Dimension.set_entity_pos, Dimension.move_entity_with_delta, hid]
  · have hset : d.set_entity_pos id p =
        (.ok (), { d with entity_storage :=
          if ChunkPos.fromVec3 e0.pos ≠ ChunkPos.fromVec3 p then
            ((d.entity_storage.unsafe_move id p).update_entity_chunk id
              (ChunkPos.fromVec3 e0.pos) (ChunkPos.fromVec3 p))
          else d.entity_storage.unsafe_move id p }) := by
      rw [Dimension.set_entity_pos, hid]
    have hmove : d.move_entity_with_delta id delta =
        (.ok (), { d with entity_storage :=
          if ChunkPos.fromVec3 e0.pos ≠ ChunkPos.fromVec3 (e0.pos.with_delta delta) then
            ((d.entity_storage.unsafe_move id (e0.pos.with_delta delta)).update_entity_chunk id
              (ChunkPos.fromVec3 e0.pos) (ChunkPos.fromVec3 (e0.pos.with_delta delta)))
          else d.entity_storage.unsafe_move id (e0.pos.with_delta delta) }) := by
      rw [Dimension.move_entity_with_delta, hid]
    refine ⟨?_, ?_, ?_, ?_, ?_, ?_⟩
    · rw [hset]; simp
    · intro h; simp at h
    · intro e he
      injection he with he
      subst he
      refine ⟨by rw [hset], ?_, ?_⟩
      · rw [hset]
        split_ifs <;>
          simp [get_by_id_update_entity_chunk, get_by_id_unsafe_move_self, hid]
      · intro j hj
        rw [hset]
        split_ifs <;>
          simp [get_by_id_update_entity_chunk, get_by_id_unsafe_move_other _ _ _ _ hj]
    · rw [hmove]; simp
    · intro h; simp at h
    · intro e he
      injection he with he
      subst he
      refine ⟨by rw [hmove], ?_, ?_⟩
      · rw [hmove]
        split_ifs <;>
          simp [get_by_id_update_entity_chunk, get_by_id_unsafe_move_self, hid]
      · intro j hj
        rw [hmove]
        split_ifs <;>
          simp [get_by_id_update_entity_chunk, get_by_id_unsafe_move_other _ _ _ _ hj]

/-- Witness for C9: a store holding one entity (id 7) at the origin; moving id 7
succeeds and moving the absent id 8 fails without touching the state. -/
theorem C9_dimension_move_entity_witness :
    ((Dimension.mk ⟨[(7, ⟨⟨0, 64, 0⟩⟩)], []⟩).set_entity_pos 7 ⟨100, 64, 0⟩).1 = .ok () ∧
    ((Dimension.mk ⟨[(7, ⟨⟨0, 64, 0⟩⟩)], []⟩).set_entity_pos 8 ⟨100, 64, 0⟩).1 =
      .error MoveEntityError.EntityDoesNotExist ∧
    ((Dimension.mk ⟨[(7, ⟨⟨0, 64, 0⟩⟩)], []⟩).set_entity_pos 8 ⟨100, 64, 0⟩).2 =
      Dimension.mk ⟨[(7, ⟨⟨0, 64, 0⟩⟩)], []⟩ := by
  refine ⟨((C9_dimension_move_entity (Dimension.mk ⟨[(7, ⟨⟨0, 64, 0⟩⟩)], []⟩) 7 ⟨100, 64, 0⟩
    ⟨0, 0, 0⟩).2.2.1 ⟨⟨0, 64, 0⟩⟩ (by decide)).1, ?_, ?_⟩
  · exact (C9_dimension_move_entity (Dimension.mk ⟨[(7, ⟨⟨0, 64, 0⟩⟩)], []⟩) 8 ⟨100, 64, 0⟩
      ⟨0, 0, 0⟩).1.mpr (by decide)
  · exact (C9_dimension_move_entity (Dimension.mk ⟨[(7, ⟨⟨0, 64, 0⟩⟩)], []⟩) 8 ⟨100, 64, 0⟩
      ⟨0, 0, 0⟩).2.1 (by decide)
/-! ## Movement packet emission (azalea-client/src/movement.rs, `send_position`)

The per-tick system computing which movement packet (if any) a local player in a
loaded chunk sends.  `f64`/`f32` coordinates and angles are modelled as exact
rationals; the four packet shapes keep exactly the fields the Rust packets carry. -/

/-- A look direction (`y_rot` yaw, `x_rot` pitch). -/
structure LookDirection where
  y_rot : ℚ
  x_rot : ℚ
deriving DecidableEq, Repr

/-- The components read and written by `send_position` for one entity. -/
structure SendPositionState where
  position : Vec3
  look_direction : LookDirection
  position_remainder : Nat
  last_sent_position : Vec3
  last_sent_look_direction : LookDirection
  on_ground : Bool
  last_on_ground : Bool
deriving DecidableEq, Repr

/-- The movement packets `send_position` can emit. -/
inductive MovePacket where
  | PosRot (x y z : ℚ) (x_rot y_rot : ℚ) (on_ground : Bool) : MovePacket
  | Pos (x y z : ℚ) (on_ground : Bool) : MovePacket
  | Rot (x_rot y_rot : ℚ) (on_ground : Bool) : MovePacket
  | StatusOnly (on_ground : Bool) : MovePacket
deriving DecidableEq, Repr

/-- `2.0e-4`. -/
def MOVE_THRESHOLD : ℚ := 2 / 10000

/-- The `sending_position` decision of `send_position`.  In the source the
`position_remainder` component is incremented before this comparison, so the
value compared against 20 is the stored counter plus one. -/
def sendingPosition (s : SendPositionState) : Bool :=
  decide ((s.position.x - s.last_sent_position.x) ^ 2 +
      (s.position.y - s.last_sent_position.y) ^ 2 +
      (s.position.z - s.last_sent_position.z) ^ 2 > MOVE_THRESHOLD ^ 2) ||
    decide (s.position_remainder + 1 ≥ 20)

/-- The `sending_direction` decision of `send_position`. -/
def sendingDirection (s : SendPositionState) : Bool :=
  decide (s.look_direction.y_rot - s.last_sent_look_direction.y_rot ≠ 0) ||
    decide (s.look_direction.x_rot - s.last_sent_look_direction.x_rot ≠ 0)

/-- `send_position` for one entity: the emitted packet (if any) and the updated
components. -/
def sendPosition (s : SendPositionState) : Option MovePacket × SendPositionState :=
  let sending_position := sendingPosition s
  let sending_direction := sendingDirection s
  let packet : Option MovePacket :=
    if sending_position && sending_direction then
      some (.PosRot s.position.x s.position.y s.position.z
        s.look_direction.x_rot s.look_direction.y_rot s.on_ground)
    else if sending_position then
      some (.Pos s.position.x s.position.y s.position.z s.on_ground)
    else if sending_direction then
      some (.Rot s.look_direction.x_rot s.look_direction.y_rot s.on_ground)
    else if s.last_on_ground != s.on_ground then
      some (.StatusOnly s.on_ground)
    else none
  (packet,
    { s with
      position_remainder := if sending_position then 0 else s.position_remainder + 1,
      last_sent_position := if sending_position then s.position else s.last_sent_position,
      last_sent_look_direction :=
        if sending_direction then s.look_direction else s.last_sent_look_direction,
      last_on_ground := s.on_ground })

/-- Counterexample to C2 as stated: with `position_remainder = 19` (below 20), zero
displacement, unchanged look direction and unchanged `on_ground`, `send_position`
still emits a `MovePlayerPos` packet, because the counter is incremented to 20
before the `>= 20` comparison. -/
theorem C2_send_position_counterexample :
    (SendPositionState.mk ⟨0, 64, 0⟩ ⟨0, 0⟩ 19 ⟨0, 64, 0⟩ ⟨0, 0⟩ true true).position_remainder <
        20 ∧
    ((SendPositionState.mk ⟨0, 64, 0⟩ ⟨0, 0⟩ 19 ⟨0, 64, 0⟩ ⟨0, 0⟩ true true).position.x -
          (SendPositionState.mk ⟨0, 64, 0⟩ ⟨0, 0⟩ 19 ⟨0, 64, 0⟩ ⟨0, 0⟩ true true).last_sent_position.x) ^ 2 +
        ((SendPositionState.mk ⟨0, 64, 0⟩ ⟨0, 0⟩ 19 ⟨0, 64, 0⟩ ⟨0, 0⟩ true true).position.y -
          (SendPositionState.mk ⟨0, 64, 0⟩ ⟨0, 0⟩ 19 ⟨0, 64, 0⟩ ⟨0, 0⟩ true true).last_sent_position.y) ^ 2 +
        ((SendPositionState.mk ⟨0, 64, 0⟩ ⟨0, 0⟩ 19 ⟨0, 64, 0⟩ ⟨0, 0⟩ true true).position.z -
          (SendPositionState.mk ⟨0, 64, 0⟩ ⟨0, 0⟩ 19 ⟨0, 64, 0⟩ ⟨0, 0⟩ true true).last_sent_position.z) ^ 2 ≤
        MOVE_THRESHOLD ^ 2 ∧
    (SendPositionState.mk ⟨0, 64, 0⟩ ⟨0, 0⟩ 19 ⟨0, 64, 0⟩ ⟨0, 0⟩ true true).look_direction =
      (SendPositionState.mk ⟨0, 64, 0⟩ ⟨0, 0⟩ 19 ⟨0, 64, 0⟩ ⟨0, 0⟩ true true).last_sent_look_direction ∧
    (SendPositionState.mk ⟨0, 64, 0⟩ ⟨0, 0⟩ 19 ⟨0, 64, 0⟩ ⟨0, 0⟩ true true).on_ground =
      (SendPositionState.mk ⟨0, 64, 0⟩ ⟨0, 0⟩ 19 ⟨0, 64, 0⟩ ⟨0, 0⟩ true true).last_on_ground ∧
    (sendPosition (SendPositionState.mk ⟨0, 64, 0⟩ ⟨0, 0⟩ 19 ⟨0, 64, 0⟩ ⟨0, 0⟩ true true)).1 =
      some (MovePacket.Pos 0 64 0 true) := by
  refine ⟨by norm_num, by norm_num [MOVE_THRESHOLD], rfl, rfl, ?_⟩
  rw [sendPosition]
  have hsp : sendingPosition (SendPositionState.mk ⟨0, 64, 0⟩ ⟨0, 0⟩ 19 ⟨0, 64, 0⟩ ⟨0, 0⟩ true true) =
      true := by
    rw [sendingPosition]
    norm_num
  have hsd : sendingDirection (SendPositionState.mk ⟨0, 64, 0⟩ ⟨0, 0⟩ 19 ⟨0, 64, 0⟩ ⟨0, 0⟩ true true) =
      false := by
    rw [sendingDirection]
    norm_num
  simp [hsp, hsd]

/-- C2 (amended): `send_position` emits no movement packet when the squared
displacement from `LastSentPosition` is at most `(2.0e-4)^2`, the incremented
`position_remainder` counter (stored counter plus one) is below 20, the look
direction equals the last sent look direction, and `on_ground` equals
`last_on_ground`; and it decides to send a position exactly when the squared
displacement exceeds `(2.0e-4)^2` or the incremented counter has reached 20. -/
theorem C2_send_position_emission (s : SendPositionState) :
    ((s.position.x - s.last_sent_position.x) ^ 2 + (s.position.y - s.last_sent_position.y) ^ 2 +
        (s.position.z - s.last_sent_position.z) ^ 2 ≤ MOVE_THRESHOLD ^ 2 →
      s.position_remainder + 1 < 20 →
      s.look_direction = s.last_sent_look_direction →
      s.on_ground = s.last_on_ground →
      (sendPosition s).1 = none) ∧
    (sendingPosition s = true ↔
      ((s.position.x - s.last_sent_position.x) ^ 2 + (s.position.y - s.last_sent_position.y) ^ 2 +
          (s.position.z - s.last_sent_position.z) ^ 2 > MOVE_THRESHOLD ^ 2 ∨
        s.position_remainder + 1 ≥ 20)) := by
  constructor
  · intro hdist hrem hlook hground
    have hsp : sendingPosition s = false := by
      rw [sendingPosition]
      simp only [Bool.or_eq_false_iff, decide_eq_false_iff_not]
      exact ⟨not_lt.mpr hdist, by omega⟩
    have hsd : sendingDirection s = false := by
      rw [sendingDirection]
      simp only [Bool.or_eq_false_iff, decide_eq_false_iff_not]
      rw [hlook]
      norm_num
    rw [sendPosition]
    simp [hsp, hsd, hground]
  · rw [sendingPosition]
    simp

/-- Witness for C2 (amended): with a fresh counter, zero displacement, unchanged
look and unchanged ground flag, nothing is emitted. -/
theorem C2_send_position_emission_witness :
    (sendPosition (SendPositionState.mk ⟨0, 64, 0⟩ ⟨0, 0⟩ 0 ⟨0, 64, 0⟩ ⟨0, 0⟩ true true)).1 =
      none :=
  (C2_send_position_emission (SendPositionState.mk ⟨0, 64, 0⟩ ⟨0, 0⟩ 0 ⟨0, 64, 0⟩ ⟨0, 0⟩ true true)).1
    (by norm_num [MOVE_THRESHOLD]) (by norm_num) rfl rfl
/-! ## Sprinting and the speed attribute modifier (azalea-client/src/movement.rs)

`set_sprinting`, `handle_walk` and `local_player_ai_step`, restricted to the
components they read and write.  The attribute store (`azalea_entity::Attributes`
and `attributes::sprinting_modifier`) is not among the provided sources; it is
modelled from the spec: "`Sprinting` implies a sprint attribute modifier is
present on `Attributes.speed`; `!Sprinting` implies its absence" — a
uuid-keyed set of modifiers with fallible insert and remove. -/

/-- Modelled from the spec: an attribute modifier identified by its uuid. -/
structure AttributeModifier where
  uuid : Nat
  amount : ℚ
deriving DecidableEq, Repr

/-- Modelled from the spec: the fixed sprinting modifier
(`azalea_entity::attributes::sprinting_modifier()`). -/
def sprinting_modifier : AttributeModifier := ⟨1, 3 / 10⟩

/-- Modelled from the spec: one attribute (e.g. `Attributes.speed`) holding a
uuid-keyed collection of modifiers. -/
structure AttributeInstance where
  modifiers : List (Nat × AttributeModifier)
deriving DecidableEq, Repr

namespace AttributeInstance

/-- Whether a modifier with the given uuid is present. -/
def hasModifier (a : AttributeInstance) (uuid : Nat) : Bool :=
  a.modifiers.any (fun kv => kv.1 == uuid)

/-- Modelled from the spec: insert fails when a modifier with the same uuid is
already present (`insert(...).is_ok()` is how `set_sprinting` reports success). -/
def insert (a : AttributeInstance) (m : AttributeModifier) : Except Unit AttributeInstance :=
  if a.hasModifier m.uuid then .error ()
  else .ok ⟨(m.uuid, m) :: a.modifiers⟩

/-- Modelled from the spec: remove the modifier with the given uuid, returning it
(if present) together with the new store. -/
def remove (a : AttributeInstance) (uuid : Nat) :
    Option AttributeModifier × AttributeInstance :=
  ((a.modifiers.find? (fun kv => kv.1 == uuid)).map Prod.snd,
    ⟨a.modifiers.filter (fun kv => kv.1 != uuid)⟩)

end AttributeInstance

/-- `set_sprinting(sprinting, currently_sprinting, attributes)`: set the
`Sprinting` component and insert/remove the sprinting modifier on the speed
attribute.  Returns (success, new `Sprinting`, new attribute store). -/
def set_sprinting (sprinting : Bool) (attributes : AttributeInstance) :
    Bool × Bool × AttributeInstance :=
  if sprinting then
    match attributes.insert sprinting_modifier with
    | .ok a2 => (true, sprinting, a2)
    | .error _ => (false, sprinting, attributes)
  else
    let (removed, a2) := attributes.remove sprinting_modifier.uuid
    (removed.isNone, sprinting, a2)

/-- The walk directions (`WalkDirection`). -/
inductive WalkDirection where
  | none | forward | backward | left | right
  | forwardRight | forwardLeft | backwardRight | backwardLeft
deriving DecidableEq, Repr

/-- The `PhysicsState` fields read and written by the sprint systems. -/
structure SprintPhysicsState where
  move_direction : WalkDirection
  trying_to_sprint : Bool
  forward_impulse : ℚ
  left_impulse : ℚ
deriving DecidableEq, Repr

/-- `handle_walk` for one `StartWalkEvent`: record the direction, clear
`trying_to_sprint`, and `set_sprinting(false)`. -/
def handle_walk (direction : WalkDirection) (ps : SprintPhysicsState) (sprinting : Bool)
    (attributes : AttributeInstance) : SprintPhysicsState × Bool × AttributeInstance :=
  let ps2 := { ps with move_direction := direction, trying_to_sprint := false }
  let r := set_sprinting false attributes
  (ps2, r.2.1, r.2.2)

/-- `has_enough_impulse_to_start_sprinting`: `forward_impulse > 0.8`. -/
def has_enough_impulse_to_start_sprinting (ps : SprintPhysicsState) : Bool :=
  decide (ps.forward_impulse > 8 / 10)

/-- The `Physics` fields written by `local_player_ai_step`. -/
structure AiStepPhysics where
  xxa : ℚ
  zza : ℚ
deriving DecidableEq, Repr

/-- `local_player_ai_step`: copy the impulses into the physics component, then
start sprinting when not already sprinting, the impulse is large enough, the
player has enough food (always true in the source), and sprint was requested. -/
def local_player_ai_step (ps : SprintPhysicsState) (physics : AiStepPhysics)
    (sprinting : Bool) (attributes : AttributeInstance) :
    AiStepPhysics × Bool × AttributeInstance :=
  let physics2 := { physics with xxa := ps.left_impulse, zza := ps.forward_impulse }
  let has_enough_food_to_sprint := true
  let trying_to_sprint := ps.trying_to_sprint
  if ¬sprinting ∧ (has_enough_impulse_to_start_sprinting ps ∧ has_enough_food_to_sprint ∧
      trying_to_sprint) then
    let r := set_sprinting true attributes
    (physics2, r.2.1, r.2.2)
  else
    (physics2, sprinting, attributes)

/-- The invariant of claim C7: `Sprinting` holds exactly when the sprinting
modifier is present on the speed attribute. -/
def SprintInvariant (sprinting : Bool) (speed : AttributeInstance) : Prop :=
  sprinting = speed.hasModifier sprinting_modifier.uuid

theorem hasModifier_filter_ne (l : List (Nat × AttributeModifier)) (u : Nat) :
    (AttributeInstance.mk (l.filter (fun kv => kv.1 != u))).hasModifier u = false := by
  rw [AttributeInstance.hasModifier]
  induction l with
  | nil => rfl
  | cons kv rest ih =>
    rw [List.filter_cons]
    by_cases hk : kv.1 = u
    · simp [hk] at ih ⊢
    · simp [hk] at ih ⊢

theorem set_sprinting_invariant (b : Bool) (a : AttributeInstance) :
    SprintInvariant (set_sprinting b a).2.1 (set_sprinting b a).2.2 := by
  rw [SprintInvariant, set_sprinting]
  cases b with
  | false =>
    simp only [Bool.false_eq_true, if_false]
    exact (hasModifier_filter_ne a.modifiers sprinting_modifier.uuid).symm
  | true =>
    simp only [if_true]
    rcases hins : a.insert sprinting_modifier with _ | a2
    · -- insert failed: the modifier was already present
      rw [AttributeInstance.insert] at hins
      split_ifs at hins with hpresent
      · simp [hpresent]
    · -- insert succeeded: the modifier is now at the head
      rw [AttributeInstance.insert] at hins
      split_ifs at hins with hpresent
      injection hins with hins
      subst hins
      simp [AttributeInstance.hasModifier]

/-- C7: `Sprinting` is true exactly when the sprinting modifier is present on the
speed attribute, and every sprint-state-changing operation — `set_sprinting`
itself, `handle_walk`, and `local_player_ai_step` — yields a state satisfying
this correspondence (the last one preserving it when it makes no change). -/
theorem C7_sprinting_attribute_invariant :
    (∀ (b : Bool) (a : AttributeInstance),
      SprintInvariant (set_sprinting b a).2.1 (set_sprinting b a).2.2) ∧
    (∀ (d : WalkDirection) (ps : SprintPhysicsState) (s : Bool) (a : AttributeInstance),
      SprintInvariant (handle_walk d ps s a).2.1 (handle_walk d ps s a).2.2) ∧
    (∀ (ps : SprintPhysicsState) (ph : AiStepPhysics) (s : Bool) (a : AttributeInstance),
      SprintInvariant s a →
      SprintInvariant (local_player_ai_step ps ph s a).2.1
        (local_player_ai_step ps ph s a).2.2) := by
  refine ⟨set_sprinting_invariant, fun d ps s a => ?_, fun ps ph s a hinv => ?_⟩
  · rw [handle_walk]
    exact set_sprinting_invariant false a
  · rw [local_player_ai_step]
    split_ifs with hcond
    · exact set_sprinting_invariant true a
    · exact hinv

/-- Witness for C7: starting from a non-sprinting state with no modifiers,
`local_player_ai_step` with a sprint request establishes the correspondence. -/
theorem C7_sprinting_attribute_invariant_witness :
    SprintInvariant
      (local_player_ai_step ⟨WalkDirection.forward, true, 1, 0⟩ ⟨0, 0⟩ false ⟨[]⟩).2.1
      (local_player_ai_step ⟨WalkDirection.forward, true, 1, 0⟩ ⟨0, 0⟩ false ⟨[]⟩).2.2 :=
  C7_sprinting_attribute_invariant.2.2 ⟨WalkDirection.forward, true, 1, 0⟩ ⟨0, 0⟩ false ⟨[]⟩
    (by rw [SprintInvariant]; decide)
/-! ## Configuration-phase packet handling
(azalea-client/src/packet_handling/configuration.rs) and protocol phases

`process_packet_events` dispatches the clientbound configuration packets of a
client entity that carries `InConfigurationState`; registry payloads are opaque
blobs here.  The protocol-phase transition relation collects exactly the phase
changes the sources perform. -/

/-- `ConnectionProtocol`: the protocol phase of a connection. -/
inductive ConnectionProtocol where
  | Handshake : ConnectionProtocol
  | Status : ConnectionProtocol
  | Login : ConnectionProtocol
  | Configuration : ConnectionProtocol
  | Game : ConnectionProtocol
deriving DecidableEq, Repr

/-- The clientbound configuration packets (payloads reduced to what the handler
reads: `RegistryData` carries name-keyed opaque blobs, the rest are ignored). -/
inductive ClientboundConfigPacket where
  | RegistryData (registries : List (String × Nat)) : ClientboundConfigPacket
  | CustomPayload : ClientboundConfigPacket
  | Disconnect : ClientboundConfigPacket
  | FinishConfiguration : ClientboundConfigPacket
  | KeepAlive : ClientboundConfigPacket
  | Ping : ClientboundConfigPacket
  | ResourcePack : ClientboundConfigPacket
  | UpdateEnabledFeatures : ClientboundConfigPacket
  | UpdateTags : ClientboundConfigPacket
deriving DecidableEq, Repr

/-- The serverbound configuration packets the handler can write. -/
inductive ServerboundConfigPacket where
  | FinishConfiguration : ServerboundConfigPacket
deriving DecidableEq, Repr

/-- Insert one received registry, overriding an existing entry of the same name
(`received_registries.registries.insert(registry_name, registry)`). -/
def upsertRegistry (l : List (String × Nat)) (k : String) (v : Nat) : List (String × Nat) :=
  if l.any (fun kv => kv.1 == k) then
    l.map (fun kv => if kv.1 == k then (kv.1, v) else kv)
  else l ++ [(k, v)]

/-- The per-client state `process_packet_events` reads and writes: the received
registries, the connection's protocol state, whether the entity still carries
`InConfigurationState`, and whether the `JoinedClientBundle` has been inserted. -/
structure ConfigClientState where
  received_registries : List (String × Nat)
  conn_protocol : ConnectionProtocol
  in_configuration_state : Bool
  joined : Bool
deriving DecidableEq, Repr

/-- Handling of a single packet inside `process_packet_events`: the new state and
the packets written to the connection. -/
def processConfigPacket (st : ConfigClientState) (p : ClientboundConfigPacket) :
    ConfigClientState × List ServerboundConfigPacket :=
  match p with
  | .RegistryData regs =>
    ({ st with received_registries :=
        regs.foldl (fun acc kv => upsertRegistry acc kv.1 kv.2) st.received_registries }, [])
  | .CustomPayload => (st, [])
  | .Disconnect => (st, [])
  | .FinishConfiguration =>
    ({ st with
        conn_protocol := ConnectionProtocol.Game,
        in_configuration_state := false,
        joined := true },
      [ServerboundConfigPacket.FinishConfiguration])
  | .KeepAlive => (st, [])
  | .Ping => (st, [])
  | .ResourcePack => (st, [])
  | .UpdateEnabledFeatures => (st, [])
  | .UpdateTags => (st, [])

/-- `process_packet_events`: drain the batched packet events in order. -/
def processConfigPacketEvents (st : ConfigClientState) :
    List ClientboundConfigPacket → ConfigClientState × List ServerboundConfigPacket
  | [] => (st, [])
  | p :: rest =>
    let r := processConfigPacket st p
    let r2 := processConfigPacketEvents r.1 rest
    (r2.1, r.2 ++ r2.2)

/-- The index of a protocol phase in the handshake → … → game order. -/
def phaseIdx : ConnectionProtocol → Nat
  | .Handshake => 0
  | .Status => 1
  | .Login => 1
  | .Configuration => 2
  | .Game => 3

/-- The protocol-phase changes performed by the sources: `conn.login()` after the
`ClientIntention` write in `handshake` (client.rs), `conn.game()` on
`GameProfile` (client.rs), `set_state(ConnectionProtocol::Game)` on
`FinishConfiguration` (configuration.rs), and — modelled from the spec, the
corresponding handler not being among the provided sources — the modern
`GameProfile` → Configuration transition. -/
inductive PhaseStep : ConnectionProtocol → ConnectionProtocol → Prop where
  | handshakeToLogin : PhaseStep ConnectionProtocol.Handshake ConnectionProtocol.Login
  | loginToGame : PhaseStep ConnectionProtocol.Login ConnectionProtocol.Game
  | loginToConfiguration :
      PhaseStep ConnectionProtocol.Login ConnectionProtocol.Configuration
  | configurationToGame :
      PhaseStep ConnectionProtocol.Configuration ConnectionProtocol.Game

/-- C8: on a `FinishConfiguration` packet received while in the Configuration
phase the client replies with a serverbound `FinishConfiguration` and sets the
connection state to Game; and every phase transition strictly advances the
phase, so over any run the phase never regresses. -/
theorem C8_finish_configuration_and_phase_monotone :
    (∀ st : ConfigClientState, st.in_configuration_state = true →
      st.conn_protocol = ConnectionProtocol.Configuration →
      (processConfigPacket st .FinishConfiguration).2 =
        [ServerboundConfigPacket.FinishConfiguration] ∧
      (processConfigPacket st .FinishConfiguration).1.conn_protocol =
        ConnectionProtocol.Game ∧
      (processConfigPacket st .FinishConfiguration).1.in_configuration_state = false) ∧
    (∀ a b, PhaseStep a b → phaseIdx a < phaseIdx b) ∧
    (∀ a b, Relation.ReflTransGen PhaseStep a b → phaseIdx a ≤ phaseIdx b) := by
  have hstep : ∀ a b, PhaseStep a b → phaseIdx a < phaseIdx b := by
    intro a b h
    cases h <;> decide
  refine ⟨fun st _ _ => ⟨rfl, rfl, rfl⟩, hstep, fun a b h => ?_⟩
  induction h with
  | refl => exact le_refl _
  | tail _ h2 ih => exact le_trans ih (le_of_lt (hstep _ _ h2))

/-- Witness for C8: a client in the Configuration phase receiving
`FinishConfiguration` answers with the serverbound `FinishConfiguration` and
moves to the Game phase. -/
theorem C8_finish_configuration_and_phase_monotone_witness :
    (processConfigPacket ⟨[], ConnectionProtocol.Configuration, true, false⟩
        .FinishConfiguration).2 = [ServerboundConfigPacket.FinishConfiguration] ∧
    (processConfigPacket ⟨[], ConnectionProtocol.Configuration, true, false⟩
        .FinishConfiguration).1.conn_protocol = ConnectionProtocol.Game ∧
    (processConfigPacket ⟨[], ConnectionProtocol.Configuration, true, false⟩
        .FinishConfiguration).1.in_configuration_state = false :=
  C8_finish_configuration_and_phase_monotone.1
    ⟨[], ConnectionProtocol.Configuration, true, false⟩ rfl rfl
/-! ## Login handshake and the session-server retry (azalea-client/src/client.rs)

The `handshake` packet loop and its inner authentication `while let Err(e)` loop.
The session server and the credential provider are external collaborators: their
responses enter the model as oracles (`authResults` indexed by the number of
`authenticate` calls made so far, and a single `refreshResult`).  Cryptography
(`azalea_crypto::encrypt`) only produces the bytes of the `Key` reply and is not
modelled. -/

/-- `ClientSessionServerError`, split into the two recoverable variants and an
opaque remainder. -/
inductive ClientSessionServerError where
  | InvalidSession : ClientSessionServerError
  | ForbiddenOperation : ClientSessionServerError
  | Other (code : Nat) : ClientSessionServerError
deriving DecidableEq, Repr

/-- A game profile (`GameProfile { name, uuid }`). -/
structure GameProfile where
  name : String
  uuid : Nat
deriving DecidableEq, Repr

/-- The `JoinError` variants reachable in the modelled part of `handshake`. -/
inductive JoinError where
  | SessionServer (e : ClientSessionServerError) : JoinError
  | Auth (code : Nat) : JoinError
  | Disconnect (reason : String) : JoinError
  | ReadPacket : JoinError
deriving DecidableEq, Repr

/-- The clientbound login packets, with the fields the loop reads. -/
inductive ClientboundLoginPacket where
  | Hello : ClientboundLoginPacket
  | LoginCompression (compression_threshold : Int) : ClientboundLoginPacket
  | GameProfile (game_profile : GameProfile) : ClientboundLoginPacket
  | LoginDisconnect (reason : String) : ClientboundLoginPacket
  | CustomQuery (transaction_id : Nat) : ClientboundLoginPacket
deriving DecidableEq, Repr

/-- An account: the username and whether an access token (and uuid) is present. -/
structure Account where
  username : String
  access_token : Option Unit
  uuid : Option Nat
deriving DecidableEq, Repr

/-- The `while let Err(e) = conn.authenticate(...)` loop of `handshake`.
`attempts` starts at 1; a failure with at least 2 attempts gives up; a
recoverable failure refreshes the token and retries; any other failure is
fatal.  Returns the outcome together with the total number of `authenticate`
calls and of refresh calls made. -/
def authLoop (authResults : Nat → Except ClientSessionServerError Unit)
    (refreshResult : Except Nat Unit) (attempts callIdx refreshCount : Nat) :
    Except JoinError Unit × Nat × Nat :=
  match authResults callIdx with
  | .ok () => (.ok (), callIdx + 1, refreshCount)
  | .error e =>
    if 2 ≤ attempts then (.error (.SessionServer e), callIdx + 1, refreshCount)
    else
      match e with
      | .InvalidSession | .ForbiddenOperation =>
        match refreshResult with
        | .ok () =>
          authLoop authResults refreshResult (attempts + 1) (callIdx + 1) (refreshCount + 1)
        | .error ae => (.error (.Auth ae), callIdx + 1, refreshCount + 1)
      | .Other c => (.error (.SessionServer (.Other c)), callIdx + 1, refreshCount)
termination_by 2 - attempts
decreasing_by omega

/-- The packet loop of `handshake`: read login packets until `GameProfile` (success)
or a fatal error; `Hello` runs the credential exchange when the account has an
access token; an exhausted stream is a read error. -/
def handshakeLoop (account : Account)
    (authResults : Nat → Except ClientSessionServerError Unit)
    (refreshResult : Except Nat Unit) :
    List ClientboundLoginPacket → Nat → Nat → Except JoinError GameProfile × Nat × Nat
  | [], callIdx, refreshCount => (.error .ReadPacket, callIdx, refreshCount)
  | p :: rest, callIdx, refreshCount =>
    match p with
    | .Hello =>
      match account.access_token with
      | some _ =>
        let r := authLoop authResults refreshResult 1 callIdx refreshCount
        match r.1 with
        | .ok () => handshakeLoop account authResults refreshResult rest r.2.1 r.2.2
        | .error e => (.error e, r.2.1, r.2.2)
      | none => handshakeLoop account authResults refreshResult rest callIdx refreshCount
    | .LoginCompression _ => handshakeLoop account authResults refreshResult rest callIdx refreshCount
    | .GameProfile profile => (.ok profile, callIdx, refreshCount)
    | .LoginDisconnect reason => (.error (.Disconnect reason), callIdx, refreshCount)
    | .CustomQuery _ => handshakeLoop account authResults refreshResult rest callIdx refreshCount

/-- A session-server error is recoverable when it is `InvalidSession` or
`ForbiddenOperation`. -/
def RecoverableSessionError (e : ClientSessionServerError) : Prop :=
  e = ClientSessionServerError.InvalidSession ∨ e = ClientSessionServerError.ForbiddenOperation

/-- C4: on a recoverable session-server failure with an access token present, the
client refreshes once and retries exactly once — a successful retry proceeds, a
second failure (of any kind) aborts; a first failure with any other error aborts
with no refresh; and an aborted credential exchange makes `handshake` return an
error, so no `GameProfile` is produced. -/
theorem C4_auth_retry_once (authResults : Nat → Except ClientSessionServerError Unit)
    (e1 : ClientSessionServerError) (ci rc : Nat) :
    (∀ e2, authResults ci = .error e1 → RecoverableSessionError e1 →
      authResults (ci + 1) = .error e2 →
      authLoop authResults (.ok ()) 1 ci rc =
        (.error (.SessionServer e2), ci + 2, rc + 1)) ∧
    (authResults ci = .error e1 → RecoverableSessionError e1 →
      authResults (ci + 1) = .ok () →
      authLoop authResults (.ok ()) 1 ci rc = (.ok (), ci + 2, rc + 1)) ∧
    (∀ c, authResults ci = .error (.Other c) →
      authLoop authResults (.ok ()) 1 ci rc =
        (.error (.SessionServer (.Other c)), ci + 1, rc)) ∧
    (∀ (account : Account) (rest : List ClientboundLoginPacket) (err : JoinError),
      account.access_token = some () →
      (authLoop authResults (.ok ()) 1 ci rc).1 = .error err →
      ∀ profile, (handshakeLoop account authResults (.ok ())
        (.Hello :: rest) ci rc).1 ≠ .ok profile) := by
    refine ⟨fun e2 h1 hrec h2 => ?_, fun h1 hrec h2 => ?_, fun c h1 => ?_, ?_⟩
    · rw [authLoop]
      simp only [h1]
      rcases hrec with rfl | rfl <;>
        · rw [if_neg (by omega), authLoop]
          simp only [h2]
          rw [if_pos (by omega)]
    · rw [authLoop]
      simp only [h1]
      rcases hrec with rfl | rfl <;>
        · rw [if_neg (by omega), authLoop]
          simp only [h2]
    · rw [authLoop]
      simp only [h1]
      rw [if_neg (by omega)]
    · intro account rest err htoken herr profile
      rw [handshakeLoop, htoken]
      rcases hloop : (authLoop authResults (.ok ()) 1 ci rc).1 with e | u
      · simp [hloop]
      · rw [hloop] at herr
        exact absurd herr (by simp)

/-- Witness for C4, matching the spec's encryption-failure scenario: the session
server answers `InvalidSession` twice; the exchange refreshes once, retries once,
and `handshake` ends in that session-server error with no profile. -/
theorem C4_auth_retry_once_witness :
    authLoop (fun _ => .error .InvalidSession) (.ok ()) 1 0 0 =
      (.error (.SessionServer .InvalidSession), 2, 1) ∧
    ∀ profile, (handshakeLoop ⟨"bot", some (), some 0⟩ (fun _ => .error .InvalidSession)
      (.ok ()) [.Hello] 0 0).1 ≠ .ok profile := by
  have h := C4_auth_retry_once (fun _ => .error .InvalidSession) .InvalidSession 0 0
  refine ⟨h.1 .InvalidSession rfl (Or.inl rfl) rfl, ?_⟩
  intro profile
  exact h.2.2.2 ⟨"bot", some (), some 0⟩ [] (.SessionServer .InvalidSession) rfl
    (by rw [h.1 .InvalidSession rfl (Or.inl rfl) rfl]) profile
/-! ## A* search (azalea/src/pathfinder/astar.rs)

`a_star` over a generic node type `P` and movement data `M`, with `f32` weights
modelled as `WithTop ℚ` (`W::max_value()` as `⊤`, `W::default()` as `0`).  The
`priority_queue::PriorityQueue` keyed by `Reverse(Weight(f))` is modelled as an
association list whose pop removes the entry with the least `f` (leftmost on
ties, matching the crate's insertion-order-stable storage); `push` of a present
key replaces its priority in place.  The `HashMap` of nodes is an association
list with insert-or-replace.  The loop is driven by explicit fuel because the
Rust loop need not terminate on infinite graphs.  In addition to the fields of
the Rust structs, each node record carries the ghost field `came_from_cost` (the
cost of the edge that set `came_from`) and the state carries the ghost list
`gen` of every edge produced by a `successors` call during the run; neither
influences the control flow, they only let the theorems speak about the cost of
the returned path and about explored paths. -/

/-- `Movement { target, data }`. -/
structure AMovement (P M : Type) where
  target : P
  data : M
deriving DecidableEq, Repr

/-- `Edge { movement, cost }`. -/
structure AEdge (P M : Type) where
  movement : AMovement P M
  cost : ℚ
deriving DecidableEq, Repr

/-- `Node { position, movement_data, came_from, g_score, f_score }` plus the ghost
`came_from_cost`. -/
structure ANode (P M : Type) where
  position : P
  movement_data : Option M
  came_from : Option P
  g_score : WithTop ℚ
  f_score : WithTop ℚ
  came_from_cost : Option ℚ
deriving DecidableEq, Repr

/-- Ghost record of one generated edge: an element of a `successors(src)` result. -/
structure GenEdge (P : Type) where
  src : P
  tgt : P
  cost : ℚ
deriving DecidableEq, Repr

/-- The search state: the open set (node, `f` priority), the node map, and the
ghost list of generated edges. -/
structure AStarState (P M : Type) where
  open_set : List (P × WithTop ℚ)
  nodes : List (P × ANode P M)
  gen : List (GenEdge P)
deriving DecidableEq, Repr

section AStarDefs

variable {P M : Type} [DecidableEq P]

/-- `nodes.get(&p)` on the association list. -/
def lookupNode (nodes : List (P × ANode P M)) (p : P) : Option (ANode P M) :=
  (nodes.find? (fun kv => decide (kv.1 = p))).map Prod.snd

/-- `nodes.insert(p, n)`: replace the binding if present, else append. -/
def upsertNode (nodes : List (P × ANode P M)) (p : P) (n : ANode P M) :
    List (P × ANode P M) :=
  if (lookupNode nodes p).isSome then
    nodes.map (fun kv => if kv.1 = p then (p, n) else kv)
  else nodes ++ [(p, n)]

/-- `open_set.push(p, Reverse(Weight(f)))`: replace the priority in place if the
key is present, else append. -/
def pushOpen (os : List (P × WithTop ℚ)) (p : P) (f : WithTop ℚ) : List (P × WithTop ℚ) :=
  if (os.find? (fun kv => decide (kv.1 = p))).isSome then
    os.map (fun kv => if kv.1 = p then (p, f) else kv)
  else os ++ [(p, f)]

/-- `open_set.pop()`: remove and return the entry with the least `f`-priority,
the leftmost one on ties. -/
def popMin : List (P × WithTop ℚ) → Option ((P × WithTop ℚ) × List (P × WithTop ℚ))
  | [] => none
  | e :: rest =>
    match popMin rest with
    | none => some (e, [])
    | some (m, rest2) => if e.2 ≤ m.2 then some (e, rest) else some (m, e :: rest2)

/-- `nodes.remove(&current)`: the removed node (if any) and the remaining map. -/
def removeNode (nodes : List (P × ANode P M)) (p : P) :
    Option (ANode P M) × List (P × ANode P M) :=
  match lookupNode nodes p with
  | none => (none, nodes)
  | some n => (some n, nodes.filter (fun kv => decide (kv.1 ≠ p)))

/-- The loop of `reconstruct_path`: walk `came_from` links, removing each visited
node, collecting movements goal-first.  The fuel is the map size; each step
removes one node, so the fuel suffices.  A node with a `came_from` but no
`movement_data` would make the Rust `unwrap` panic; it is unreachable under the
search's invariants and stops the walk here. -/
def reconstructPathGo (nodes : List (P × ANode P M)) (current : P)
    (path : List (AMovement P M)) : Nat → List (AMovement P M)
  | 0 => path
  | fuel + 1 =>
    match removeNode nodes current with
    | (none, _) => path
    | (some node, nodes2) =>
      match node.came_from with
      | none => path
      | some came_from =>
        match node.movement_data with
        | none => path
        | some d =>
          reconstructPathGo nodes2 came_from (path ++ [⟨node.position, d⟩]) fuel

/-- `reconstruct_path(nodes, current)`. -/
def reconstruct_path (nodes : List (P × ANode P M)) (current : P) : List (AMovement P M) :=
  (reconstructPathGo nodes current [] nodes.length).reverse

/-- The body of the `for neighbor in successors(current_node)` loop for one edge:
record it (ghost) and relax it when the tentative score improves. -/
def relaxEdge (heuristic : P → ℚ) (current : P) (current_g : WithTop ℚ)
    (st : AStarState P M) (edge : AEdge P M) : AStarState P M :=
  let tentative_g_score := current_g + (edge.cost : WithTop ℚ)
  let neighbor_g_score :=
    ((lookupNode st.nodes edge.movement.target).map (fun n => n.g_score)).getD ⊤
  let st2 := { st with gen := st.gen ++ [⟨current, edge.movement.target, edge.cost⟩] }
  if tentative_g_score < neighbor_g_score then
    let f_score := tentative_g_score + (heuristic edge.movement.target : WithTop ℚ)
    { st2 with
      nodes := upsertNode st2.nodes edge.movement.target
        ⟨edge.movement.target, some edge.movement.data, some current,
          tentative_g_score, f_score, some edge.cost⟩,
      open_set := pushOpen st2.open_set edge.movement.target f_score }
  else st2

/-- The `for neighbor in successors(current_node)` loop: relax each generated
edge in order. -/
def expand (heuristic : P → ℚ) (current : P) (current_g : WithTop ℚ)
    (st : AStarState P M) (edges : List (AEdge P M)) : AStarState P M :=
  edges.foldl (relaxEdge heuristic current current_g) st

/-- The outcome of one iteration of the `while let Some(...) = open_set.pop()` loop. -/
inductive AStarStepResult (P M : Type) where
  | finished (result : Option (List (AMovement P M))) (final : AStarState P M) :
      AStarStepResult P M
  | running (st : AStarState P M) : AStarStepResult P M
deriving DecidableEq, Repr

/-- One iteration of the search loop: pop the least-`f` node; an empty open set
returns `None`; a success node returns the reconstructed path; otherwise expand
the node's successors. -/
def aStarStep (heuristic : P → ℚ) (successors : P → List (AEdge P M))
    (success : P → Bool) (st : AStarState P M) : AStarStepResult P M :=
  match popMin st.open_set with
  | none => .finished none st
  | some ((current_node, _), open2) =>
    let st1 := { st with open_set := open2 }
    if success current_node then
      .finished (some (reconstruct_path st1.nodes current_node)) st1
    else
      let current_g_score :=
        ((lookupNode st1.nodes current_node).map (fun n => n.g_score)).getD ⊤
      .running (expand heuristic current_node current_g_score st1 (successors current_node))

/-- The initial state of `a_star(start, ...)`: `start` pushed with priority
`W::default()` (0), and the start node recorded with `g = 0`,
`f = W::max_value()` (⊤). -/
def aStarInit (start : P) : AStarState P M :=
  { open_set := [(start, (0 : WithTop ℚ))],
    nodes := [(start, ⟨start, none, none, (0 : WithTop ℚ), ⊤, none⟩)],
    gen := [] }

/-- The fuelled search loop; `none` means the fuel ran out with the search still
going (the Rust loop would keep running). -/
def aStarLoop (heuristic : P → ℚ) (successors : P → List (AEdge P M))
    (success : P → Bool) : Nat → AStarState P M →
    Option (Option (List (AMovement P M)) × AStarState P M)
  | 0, _ => none
  | fuel + 1, st =>
    match aStarStep heuristic successors success st with
    | .finished r final => some (r, final)
    | .running st2 => aStarLoop heuristic successors success fuel st2

/-- `a_star(start, heuristic, successors, success)` (the ghost-instrumented final
state is kept alongside the returned value). -/
def a_star (start : P) (heuristic : P → ℚ) (successors : P → List (AEdge P M))
    (success : P → Bool) (fuel : Nat) :
    Option (Option (List (AMovement P M)) × AStarState P M) :=
  aStarLoop heuristic successors success fuel (aStarInit start)

end AStarDefs

/-- C3 (code evaluated at the failing input): the `a_star` in the sources takes no
time budget.  Its only exits are popping a goal node (second conjunct: a reachable
goal yields the path) or exhausting the open set, and on exhaustion it returns
`None` — no partial path (first conjunct) — while its caller
`start_computing_path` passes `Duration::from_millis(250)` and destructures a
`Path { movements, partial }` that this `a_star` does not produce. -/
theorem C3_astar_no_budget_no_partial :
    (a_star 0 (fun _ => (0 : ℚ)) (fun _ => ([] : List (AEdge Nat Unit))) (fun _ => false)
      2).map Prod.fst = some none ∧
    (a_star 0 (fun _ => (0 : ℚ))
      (fun n => if n = 0 then [⟨⟨1, ()⟩, 1⟩] else ([] : List (AEdge Nat Unit)))
      (fun n => n == 1) 3).map Prod.fst = some (some [⟨1, ()⟩]) := by
  constructor
  · decide
  · decide
/-! ## Properties of the A* search (claim C1)

Explored paths, graph paths, admissibility, and the search invariant. -/

section AStarProofs

variable {P M : Type} [DecidableEq P]

/-- The `g_score` recorded for `p`, or `⊤` when `p` has no node record. -/
def gval (nodes : List (P × ANode P M)) (p : P) : WithTop ℚ :=
  ((lookupNode nodes p).map (fun n => n.g_score)).getD ⊤

/-- Chains of explored (generated) edges from one node to another. -/
inductive ExpPath (gen : List (GenEdge P)) : P → P → List (GenEdge P) → Prop where
  | nil (p : P) : ExpPath gen p p []
  | cons (e : GenEdge P) (q : P) (es : List (GenEdge P)) :
      e ∈ gen → ExpPath gen e.tgt q es → ExpPath gen e.src q (e :: es)

/-- The total cost of a chain of explored edges. -/
def chainCost (es : List (GenEdge P)) : ℚ :=
  (es.map (fun e => e.cost)).sum

/-- Paths in the full successor graph, together with their total cost. -/
inductive SuccPath (successors : P → List (AEdge P M)) : P → P → ℚ → Prop where
  | nil (p : P) : SuccPath successors p p 0
  | cons (p q : P) (e : AEdge P M) (c : ℚ) :
      e ∈ successors p → SuccPath successors e.movement.target q c →
      SuccPath successors p q (e.cost + c)

/-- The heuristic never exceeds the true remaining cost: it is bounded by the
cost of every path of the successor graph that reaches a goal node. -/
def Admissible (heuristic : P → ℚ) (successors : P → List (AEdge P M))
    (success : P → Bool) : Prop :=
  ∀ p q c, SuccPath successors p q c → success q = true → heuristic p ≤ c

/-- Every edge produced by the successor function has nonnegative cost. -/
def NonnegCosts (successors : P → List (AEdge P M)) : Prop :=
  ∀ p, ∀ e ∈ successors p, 0 ≤ e.cost

/-- The heuristic is nonnegative. -/
def NonnegHeuristic (heuristic : P → ℚ) : Prop :=
  ∀ p, 0 ≤ heuristic p

/-- `came_from` links reach the start in finitely many steps. -/
inductive Reaches (nodes : List (P × ANode P M)) (start : P) : P → Prop where
  | refl : Reaches nodes start start
  | step (p : P) (n : ANode P M) (cf : P) :
      lookupNode nodes p = some n → n.came_from = some cf →
      Reaches nodes start cf → Reaches nodes start p

/-- `y` lies on the `came_from` chain of `x`. -/
inductive Ancestor (nodes : List (P × ANode P M)) : P → P → Prop where
  | refl (x : P) : Ancestor nodes x x
  | step (x : P) (n : ANode P M) (cf y : P) :
      lookupNode nodes x = some n → n.came_from = some cf →
      Ancestor nodes cf y → Ancestor nodes x y

/-! ### Association-list lemmas -/

theorem findKey_map_replace_self (l : List (P × ANode P M)) (p : P) (n : ANode P M)
    (hpres : l.find? (fun kv => decide (kv.1 = p)) ≠ none) :
    (l.map (fun kv => if kv.1 = p then (p, n) else kv)).find? (fun kv => decide (kv.1 = p)) =
      some (p, n) := by
  induction l with
  | nil => simp at hpres
  | cons kv rest ih =>
    by_cases hk : kv.1 = p
    · rw [List.map_cons, if_pos hk]
      simp [List.find?_cons]
    · rw [List.map_cons, if_neg hk]
      rw [List.find?_cons_of_neg _ (by simpa using hk)]
      rw [List.find?_cons_of_neg _ (by simpa using hk)] at hpres
      exact ih hpres

theorem findKey_map_replace_other (l : List (P × ANode P M)) (p q : P) (n : ANode P M)
    (hne : q ≠ p) :
    (l.map (fun kv => if kv.1 = p then (p, n) else kv)).find? (fun kv => decide (kv.1 = q)) =
      l.find? (fun kv => decide (kv.1 = q)) := by
  induction l with
  | nil => simp
  | cons kv rest ih =>
    by_cases hk3 : kv.1 = p
    · rw [List.map_cons, if_pos hk3]
      have h2 : ¬ kv.1 = q := by rw [hk3]; exact Ne.symm hne
      rw [List.find?_cons_of_neg _ (by simpa using Ne.symm hne),
        List.find?_cons_of_neg _ (by simpa using h2), ih]
    · rw [List.map_cons, if_neg hk3]
      by_cases hk : kv.1 = q
      · rw [List.find?_cons_of_pos _ (by simpa using hk),
          List.find?_cons_of_pos _ (by simpa using hk)]
      · rw [List.find?_cons_of_neg _ (by simpa using hk),
          List.find?_cons_of_neg _ (by simpa using hk), ih]

theorem lookupNode_upsert_self (nodes : List (P × ANode P M)) (p : P) (n : ANode P M) :
    lookupNode (upsertNode nodes p n) p = some n := by
  rw [upsertNode]
  split_ifs with hpres
  · rw [lookupNode, findKey_map_replace_self]
    · rfl
    · rw [lookupNode] at hpres
      intro h
      rw [h] at hpres
      simp at hpres
  · rw [lookupNode] at hpres ⊢
    have hnone : nodes.find? (fun kv => decide (kv.1 = p)) = none := by
      rcases hf : nodes.find? (fun kv => decide (kv.1 = p)) with _ | kv
      · exact hf
      · rw [hf] at hpres; simp at hpres
    rw [List.find?_append, hnone]
    simp

theorem lookupNode_upsert_other (nodes : List (P × ANode P M)) (p q : P) (n : ANode P M)
    (hne : q ≠ p) : lookupNode (upsertNode nodes p n) q = lookupNode nodes q := by
  rw [upsertNode]
  split_ifs with hpres
  · rw [lookupNode, lookupNode, findKey_map_replace_other _ _ _ _ hne]
  · rw [lookupNode, lookupNode, List.find?_append]
    rcases hf : nodes.find? (fun kv => decide (kv.1 = q)) with _ | kv
    · rw [hf]
      simp [List.find?_cons, Ne.symm hne]
    · rw [hf]
      rfl

theorem gval_upsert_other (nodes : List (P × ANode P M)) (p q : P) (n : ANode P M)
    (hne : q ≠ p) : gval (upsertNode nodes p n) q = gval nodes q := by
  rw [gval, gval, lookupNode_upsert_other _ _ _ _ hne]

theorem gval_upsert_self (nodes : List (P × ANode P M)) (p : P) (n : ANode P M) :
    gval (upsertNode nodes p n) p = n.g_score := by
  rw [gval, lookupNode_upsert_self]
  rfl

/-- Membership in `pushOpen`: the new/updated entry, or an untouched entry with a
different key. -/
theorem mem_pushOpen (os : List (P × WithTop ℚ)) (p : P) (f : WithTop ℚ)
    (kv : P × WithTop ℚ) (hkv : kv ∈ pushOpen os p f) :
    kv = (p, f) ∨ (kv ∈ os ∧ kv.1 ≠ p) := by
  rw [pushOpen] at hkv
  split_ifs at hkv with hpres
  · rcases List.mem_map.mp hkv with ⟨kv0, hkv0, heq⟩
    by_cases hk : kv0.1 = p
    · rw [if_pos hk] at heq
      exact Or.inl heq.symm
    · rw [if_neg hk] at heq
      exact Or.inr ⟨heq ▸ hkv0, heq ▸ hk⟩
  · rcases List.mem_append.mp hkv with h | h
    · by_cases hk : kv.1 = p
      · exact absurd (List.find?_isSome.mpr ⟨kv, h, by simpa using hk⟩) hpres
      · exact Or.inr ⟨h, hk⟩
    · simp at h
      exact Or.inl (by rcases kv with ⟨a, b⟩; simp at h; simp [h])

/-- A key present in the open set stays present after a push. -/
theorem key_mem_pushOpen (os : List (P × WithTop ℚ)) (p : P) (f : WithTop ℚ) (q : P)
    (h : ∃ kv ∈ os, kv.1 = q) : ∃ kv ∈ pushOpen os p f, kv.1 = q := by
  rcases h with ⟨kv, hkv, hk⟩
  rw [pushOpen]
  split_ifs with hpres
  · by_cases hq : q = p
    · exact ⟨(p, f), List.mem_map.mpr ⟨kv, hkv, by rw [hk, hq, if_pos rfl]⟩, hq.symm⟩
    · refine ⟨kv, List.mem_map.mpr ⟨kv, hkv, ?_⟩, hk⟩
      rw [if_neg (by rw [hk]; exact hq)]
  · exact ⟨kv, List.mem_append_left _ hkv, hk⟩

/-- The pushed key is present after a push. -/
theorem pushed_key_mem_pushOpen (os : List (P × WithTop ℚ)) (p : P) (f : WithTop ℚ) :
    ∃ kv ∈ pushOpen os p f, kv.1 = p := by
  rw [pushOpen]
  split_ifs with hpres
  · rcases List.find?_isSome.mp hpres with ⟨kv, hkv, hpred⟩
    have hk : kv.1 = p := by simpa using hpred
    exact ⟨(p, f), List.mem_map.mpr ⟨kv, hkv, by rw [if_pos hk]⟩, rfl⟩
  · exact ⟨(p, f), List.mem_append_right _ (List.mem_singleton.mpr rfl), rfl⟩

/-- `popMin` of a nonempty list pops a least entry and permutes the list. -/
theorem popMin_spec (os : List (P × WithTop ℚ)) (m : P × WithTop ℚ)
    (rest : List (P × WithTop ℚ)) (h : popMin os = some (m, rest)) :
    os.Perm (m :: rest) ∧ ∀ x ∈ os, m.2 ≤ x.2 := by
  induction os generalizing m rest with
  | nil => simp [popMin] at h
  | cons e os ih =>
    rcases hrec : popMin os with _ | ⟨m2, rest2⟩
    · simp only [popMin, hrec] at h
      have hos : os = [] := by
        cases os with
        | nil => rfl
        | cons a l =>
          rcases h2 : popMin l with _ | x
          · simp only [popMin, h2] at hrec
            exact absurd hrec (by simp)
          · rcases x with ⟨y, z⟩
            by_cases hle : a.2 ≤ y.2 <;> simp only [popMin, h2, hle, if_pos, if_neg] at hrec <;>
              simp [hle] at hrec
      subst hos
      injection h with h
      injection h with h1 h2
      subst h1
      subst h2
      exact ⟨List.Perm.refl _, by intro x hx; simp at hx; rw [hx]⟩
    · simp only [popMin, hrec] at h
      rcases ih m2 rest2 hrec with ⟨hperm, hmin⟩
      by_cases hle : e.2 ≤ m2.2
      · rw [if_pos hle] at h
        injection h with h
        injection h with h1 h2
        subst h1
        subst h2
        refine ⟨List.Perm.refl _, ?_⟩
        intro x hx
        rcases List.mem_cons.mp hx with rfl | hx
        · exact le_refl _
        · exact le_trans hle (hmin x hx)
      · rw [if_neg hle] at h
        injection h with h
        injection h with h1 h2
        subst h1
        subst h2
        constructor
        · exact List.Perm.trans (List.Perm.cons e hperm) (List.Perm.swap m2 e rest2)
        · intro x hx
          rcases List.mem_cons.mp hx with rfl | hx
          · exact le_of_not_le hle
          · exact hmin x hx

/-- `popMin` returns `none` exactly on the empty list. -/
theorem popMin_eq_none (os : List (P × WithTop ℚ)) : popMin os = none ↔ os = [] := by
  cases os with
  | nil => simp [popMin]
  | cons e rest =>
    rcases h : popMin rest with _ | x
    · simp [popMin, h]
    · rcases x with ⟨m, r⟩
      by_cases hle : e.2 ≤ m.2 <;> simp [popMin, h, hle]

end AStarProofs
section AStarInvariant

variable {P M : Type} [DecidableEq P]

theorem gval_eq_g (nodes : List (P × ANode P M)) (p : P) (n : ANode P M)
    (h : lookupNode nodes p = some n) : gval nodes p = n.g_score := by
  rw [gval, h]
  rfl

/-- The invariant of the search state, holding at the start of every loop
iteration. -/
structure AInv (start : P) (heuristic : P → ℚ) (successors : P → List (AEdge P M))
    (success : P → Bool) (st : AStarState P M) : Prop where
  key_pos : ∀ p n, lookupNode st.nodes p = some n → n.position = p
  start_rec : ∃ n0, lookupNode st.nodes start = some n0 ∧ n0.g_score = 0 ∧
    n0.came_from = none
  g_nonneg : ∀ p n, lookupNode st.nodes p = some n → 0 ≤ n.g_score
  g_finite : ∀ p n, lookupNode st.nodes p = some n → n.g_score ≠ ⊤
  open_keys : ∀ kv ∈ st.open_set, (lookupNode st.nodes kv.1).isSome
  open_prio : ∀ kv ∈ st.open_set,
    kv.2 = gval st.nodes kv.1 + (heuristic kv.1 : WithTop ℚ) ∨ (kv.1 = start ∧ kv.2 = 0)
  success_open : ∀ p n, lookupNode st.nodes p = some n → success p = true →
    ∃ kv ∈ st.open_set, kv.1 = p
  gen_sound : ∀ e ∈ st.gen,
    ∃ ae ∈ successors e.src, ae.movement.target = e.tgt ∧ ae.cost = e.cost
  gen_relaxed : ∀ e ∈ st.gen,
    gval st.nodes e.tgt ≤ gval st.nodes e.src + (e.cost : WithTop ℚ) ∨
      ∃ kv ∈ st.open_set, kv.1 = e.src
  cf_rec : ∀ p n, lookupNode st.nodes p = some n → ∀ cf, n.came_from = some cf →
    ∃ c d, n.came_from_cost = some c ∧ n.movement_data = some d ∧
      (GenEdge.mk cf p c) ∈ st.gen ∧ gval st.nodes cf + (c : WithTop ℚ) ≤ n.g_score
  reach : ∀ p n, lookupNode st.nodes p = some n → Reaches st.nodes start p

/-- The invariant during the expansion of `current`, parameterised by the suffix
`pending` of successor edges still to be relaxed. -/
structure MidInv (start : P) (heuristic : P → ℚ) (successors : P → List (AEdge P M))
    (success : P → Bool) (current : P) (current_g : WithTop ℚ)
    (st : AStarState P M) (pending : List (AEdge P M)) : Prop where
  key_pos : ∀ p n, lookupNode st.nodes p = some n → n.position = p
  start_rec : ∃ n0, lookupNode st.nodes start = some n0 ∧ n0.g_score = 0 ∧
    n0.came_from = none
  g_nonneg : ∀ p n, lookupNode st.nodes p = some n → 0 ≤ n.g_score
  g_finite : ∀ p n, lookupNode st.nodes p = some n → n.g_score ≠ ⊤
  open_keys : ∀ kv ∈ st.open_set, (lookupNode st.nodes kv.1).isSome
  open_prio : ∀ kv ∈ st.open_set,
    kv.2 = gval st.nodes kv.1 + (heuristic kv.1 : WithTop ℚ) ∨ (kv.1 = start ∧ kv.2 = 0)
  success_open : ∀ p n, lookupNode st.nodes p = some n → success p = true →
    ∃ kv ∈ st.open_set, kv.1 = p
  gen_sound : ∀ e ∈ st.gen,
    ∃ ae ∈ successors e.src, ae.movement.target = e.tgt ∧ ae.cost = e.cost
  gen_relaxed3 : ∀ e ∈ st.gen,
    gval st.nodes e.tgt ≤ gval st.nodes e.src + (e.cost : WithTop ℚ) ∨
      (∃ kv ∈ st.open_set, kv.1 = e.src) ∨
      (e.src = current ∧ ∃ ae ∈ pending, ae.movement.target = e.tgt ∧ ae.cost = e.cost)
  cf_rec : ∀ p n, lookupNode st.nodes p = some n → ∀ cf, n.came_from = some cf →
    ∃ c d, n.came_from_cost = some c ∧ n.movement_data = some d ∧
      (GenEdge.mk cf p c) ∈ st.gen ∧ gval st.nodes cf + (c : WithTop ℚ) ≤ n.g_score
  reach : ∀ p n, lookupNode st.nodes p = some n → Reaches st.nodes start p
  pend_sub : ∀ ae ∈ pending, ae ∈ successors current
  cur_lookup : ∃ n, lookupNode st.nodes current = some n ∧ n.g_score = current_g

/-- Along a `came_from` chain the recorded `g` scores are monotone (nonnegative
costs). -/
theorem anc_g_le (nodes : List (P × ANode P M)) (gen : List (GenEdge P))
    (successors : P → List (AEdge P M)) (hnc : NonnegCosts successors)
    (hgs : ∀ e ∈ gen, ∃ ae ∈ successors e.src, ae.movement.target = e.tgt ∧ ae.cost = e.cost)
    (hcf : ∀ p n, lookupNode nodes p = some n → ∀ cf, n.came_from = some cf →
      ∃ c d, n.came_from_cost = some c ∧ n.movement_data = some d ∧
        (GenEdge.mk cf p c) ∈ gen ∧ gval nodes cf + (c : WithTop ℚ) ≤ n.g_score)
    (x y : P) (h : Ancestor nodes x y) : gval nodes y ≤ gval nodes x := by
  induction h with
  | refl x => exact le_refl _
  | step x n cf y hlook hcf2 hanc ih =>
    rcases hcf x n hlook cf hcf2 with ⟨c, d, _, _, hmem, hle⟩
    rcases hgs _ hmem with ⟨ae, hae, _, hcost⟩
    have hc : (0 : ℚ) ≤ c := by
      have := hnc _ _ hae
      rw [hcost] at this
      exact this
    calc gval nodes y ≤ gval nodes cf := ih
      _ ≤ gval nodes cf + (c : WithTop ℚ) := le_add_of_nonneg_right (by exact_mod_cast hc)
      _ ≤ n.g_score := hle
      _ = gval nodes x := (gval_eq_g _ _ _ hlook).symm

/-- A `Reaches` derivation avoiding the updated node survives an upsert. -/
theorem reaches_upsert_avoid (nodes : List (P × ANode P M)) (start tgt : P)
    (n2 : ANode P M) (q : P) (h : Reaches nodes start q) :
    ¬ Ancestor nodes q tgt → Reaches (upsertNode nodes tgt n2) start q := by
  induction h with
  | refl => intro _; exact Reaches.refl
  | step p n cf hlook hcf _ ih =>
    intro hnanc
    have hne : p ≠ tgt := fun he => hnanc (he ▸ Ancestor.refl p)
    refine Reaches.step p n cf ?_ hcf (ih ?_)
    · rw [lookupNode_upsert_other _ _ _ _ hne]
      exact hlook
    · intro hanc
      exact hnanc (Ancestor.step p n cf tgt hlook hcf hanc)

/-- All `Reaches` facts survive an upsert whose new record points at a node that
reaches the start in the updated map. -/
theorem reaches_upsert_all (nodes : List (P × ANode P M)) (start tgt current : P)
    (n2 : ANode P M) (hcf2 : n2.came_from = some current)
    (hcur : Reaches (upsertNode nodes tgt n2) start current)
    (p : P) (h : Reaches nodes start p) : Reaches (upsertNode nodes tgt n2) start p := by
  induction h with
  | refl => exact Reaches.refl
  | step p n cf hlook hcf _ ih =>
    by_cases hp : p = tgt
    · subst hp
      exact Reaches.step p n2 current (lookupNode_upsert_self ..) hcf2 hcur
    · exact Reaches.step p n cf
        (by rw [lookupNode_upsert_other _ _ _ _ hp]; exact hlook) hcf ih

theorem gval_def (nodes : List (P × ANode P M)) (p : P) :
    ((lookupNode nodes p).map (fun n => n.g_score)).getD ⊤ = gval nodes p := rfl

theorem relaxEdge_pos (heuristic : P → ℚ) (current : P) (current_g : WithTop ℚ)
    (st : AStarState P M) (ae : AEdge P M)
    (h : current_g + (ae.cost : WithTop ℚ) < gval st.nodes ae.movement.target) :
    relaxEdge heuristic current current_g st ae =
      { open_set := pushOpen st.open_set ae.movement.target
          (current_g + (ae.cost : WithTop ℚ) + (heuristic ae.movement.target : WithTop ℚ)),
        nodes := upsertNode st.nodes ae.movement.target
          ⟨ae.movement.target, some ae.movement.data, some current,
            current_g + (ae.cost : WithTop ℚ),
            current_g + (ae.cost : WithTop ℚ) + (heuristic ae.movement.target : WithTop ℚ),
            some ae.cost⟩,
        gen := st.gen ++ [⟨current, ae.movement.target, ae.cost⟩] } := by
  simp only [relaxEdge, gval_def]
  rw [if_pos h]

theorem relaxEdge_neg (heuristic : P → ℚ) (current : P) (current_g : WithTop ℚ)
    (st : AStarState P M) (ae : AEdge P M)
    (h : ¬ current_g + (ae.cost : WithTop ℚ) < gval st.nodes ae.movement.target) :
    relaxEdge heuristic current current_g st ae =
      { st with gen := st.gen ++ [⟨current, ae.movement.target, ae.cost⟩] } := by
  simp only [relaxEdge, gval_def]
  rw [if_neg h]

/-- One relaxation step preserves the mid-expansion invariant. -/
theorem relax_preserves (start : P) (heuristic : P → ℚ)
    (successors : P → List (AEdge P M)) (success : P → Bool)
    (current : P) (current_g : WithTop ℚ) (st : AStarState P M)
    (ae : AEdge P M) (pending : List (AEdge P M))
    (hnc : NonnegCosts successors)
    (hM : MidInv start heuristic successors success current current_g st (ae :: pending)) :
    MidInv start heuristic successors success current current_g
      (relaxEdge heuristic current current_g st ae) pending := by
  have hae_succ : ae ∈ successors current := hM.pend_sub ae (List.mem_cons_self _ _)
  have hc0 : (0 : ℚ) ≤ ae.cost := hnc _ _ hae_succ
  have hc0t : (0 : WithTop ℚ) ≤ (ae.cost : WithTop ℚ) := by exact_mod_cast hc0
  rcases hM.cur_lookup with ⟨ncur, hncur, hncur_g⟩
  have hcg_fin : current_g ≠ ⊤ := hncur_g ▸ hM.g_finite _ _ hncur
  have hcg0 : (0 : WithTop ℚ) ≤ current_g := hncur_g ▸ hM.g_nonneg _ _ hncur
  have hcur_gval : gval st.nodes current = current_g := by
    rw [gval_eq_g _ _ _ hncur, hncur_g]
  by_cases hrel : current_g + (ae.cost : WithTop ℚ) < gval st.nodes ae.movement.target
  case neg =>
    rw [relaxEdge_neg _ _ _ _ _ hrel]
    refine ⟨hM.key_pos, hM.start_rec, hM.g_nonneg, hM.g_finite, hM.open_keys,
      hM.open_prio, hM.success_open, ?_, ?_, ?_, hM.reach,
      fun ae2 h2 => hM.pend_sub ae2 (List.mem_cons_of_mem _ h2), ⟨ncur, hncur, hncur_g⟩⟩
    · intro e he
      rcases List.mem_append.mp he with he | he
      · exact hM.gen_sound e he
      · rw [List.mem_singleton] at he
        subst he
        exact ⟨ae, hae_succ, rfl, rfl⟩
    · intro e he
      rcases List.mem_append.mp he with he | he
      · rcases hM.gen_relaxed3 e he with h1 | h2 | ⟨hsrc, ae2, hae2, htgt2, hcost2⟩
        · exact Or.inl h1
        · exact Or.inr (Or.inl h2)
        · rcases List.mem_cons.mp hae2 with rfl | hae2'
          · refine Or.inl ?_
            rw [← htgt2, ← hcost2, hsrc, hcur_gval]
            exact not_lt.mp hrel
          · exact Or.inr (Or.inr ⟨hsrc, ae2, hae2', htgt2, hcost2⟩)
      · rw [List.mem_singleton] at he
        subst he
        refine Or.inl ?_
        show gval st.nodes ae.movement.target ≤
          gval st.nodes current + (ae.cost : WithTop ℚ)
        rw [hcur_gval]
        exact not_lt.mp hrel
    · intro p n hp cf hcf
      rcases hM.cf_rec p n hp cf hcf with ⟨c, d, h1, h2, h3, h4⟩
      exact ⟨c, d, h1, h2, List.mem_append_left _ h3, h4⟩
  case pos =>
    have htent_fin : current_g + (ae.cost : WithTop ℚ) ≠ ⊤ :=
      WithTop.add_ne_top.mpr ⟨hcg_fin, WithTop.coe_ne_top⟩
    have htent0 : (0 : WithTop ℚ) ≤ current_g + (ae.cost : WithTop ℚ) :=
      add_nonneg hcg0 hc0t
    have htgt_ne_cur : ae.movement.target ≠ current := by
      intro he
      rw [he, hcur_gval] at hrel
      exact absurd hrel (not_lt.mpr (le_add_of_nonneg_right hc0t))
    rcases hM.start_rec with ⟨n0, hn0, hn0g, hn0cf⟩
    have hstart_gval : gval st.nodes start = 0 := by
      rw [gval_eq_g _ _ _ hn0, hn0g]
    have htgt_ne_start : ae.movement.target ≠ start := by
      intro he
      rw [he, hstart_gval] at hrel
      exact absurd (lt_of_le_of_lt htent0 hrel) (lt_irrefl _)
    have hnoanc : ¬ Ancestor st.nodes current ae.movement.target := by
      intro hanc
      have h2 := anc_g_le st.nodes st.gen successors hnc hM.gen_sound hM.cf_rec _ _ hanc
      rw [hcur_gval] at h2
      exact absurd hrel (not_lt.mpr (le_trans h2 (le_add_of_nonneg_right hc0t)))
    have hreach_cur : Reaches st.nodes start current := hM.reach _ _ hncur
    rw [relaxEdge_pos _ _ _ _ _ hrel]
    refine ⟨?_, ?_, ?_, ?_, ?_, ?_, ?_, ?_, ?_, ?_, ?_, ?_, ?_⟩
    · dsimp only
      intro p n hp
      by_cases hptg : p = ae.movement.target
      · subst hptg
        rw [lookupNode_upsert_self] at hp
        injection hp with hp
        subst hp
        rfl
      · rw [lookupNode_upsert_other _ _ _ _ hptg] at hp
        exact hM.key_pos p n hp
    · dsimp only
      refine ⟨n0, ?_, hn0g, hn0cf⟩
      rw [lookupNode_upsert_other _ _ _ _ (Ne.symm htgt_ne_start)]
      exact hn0
    · dsimp only
      intro p n hp
      by_cases hptg : p = ae.movement.target
      · subst hptg
        rw [lookupNode_upsert_self] at hp
        injection hp with hp
        subst hp
        exact htent0
      · rw [lookupNode_upsert_other _ _ _ _ hptg] at hp
        exact hM.g_nonneg p n hp
    · dsimp only
      intro p n hp
      by_cases hptg : p = ae.movement.target
      · subst hptg
        rw [lookupNode_upsert_self] at hp
        injection hp with hp
        subst hp
        exact htent_fin
      · rw [lookupNode_upsert_other _ _ _ _ hptg] at hp
        exact hM.g_finite p n hp
    · dsimp only
      intro kv hkv
      rcases mem_pushOpen _ _ _ _ hkv with rfl | ⟨hkv2, hne⟩
      · simp [lookupNode_upsert_self]
      · rw [lookupNode_upsert_other _ _ _ _ hne]
        exact hM.open_keys kv hkv2
    · dsimp only
      intro kv hkv
      rcases mem_pushOpen _ _ _ _ hkv with rfl | ⟨hkv2, hne⟩
      · refine Or.inl ?_
        simp only [gval_upsert_self]
      · rcases hM.open_prio kv hkv2 with h1 | h2
        · refine Or.inl ?_
          rw [gval_upsert_other _ _ _ _ hne]
          exact h1
        · exact Or.inr h2
    · dsimp only
      intro p n hp hsucc
      by_cases hptg : p = ae.movement.target
      · subst hptg
        exact pushed_key_mem_pushOpen _ _ _
      · rw [lookupNode_upsert_other _ _ _ _ hptg] at hp
        exact key_mem_pushOpen _ _ _ _ (hM.success_open p n hp hsucc)
    · dsimp only
      intro e he
      rcases List.mem_append.mp he with he | he
      · exact hM.gen_sound e he
      · rw [List.mem_singleton] at he
        subst he
        exact ⟨ae, hae_succ, rfl, rfl⟩
    · dsimp only
      intro e he
      rcases List.mem_append.mp he with he | he
      · rcases hM.gen_relaxed3 e he with h1 | h2 | ⟨hsrc, ae2, hae2, htgt2, hcost2⟩
        · by_cases hsrc_tg : e.src = ae.movement.target
          · refine Or.inr (Or.inl ?_)
            rcases pushed_key_mem_pushOpen st.open_set ae.movement.target
              (current_g + (ae.cost : WithTop ℚ) +
                (heuristic ae.movement.target : WithTop ℚ)) with ⟨kv, hkv, hk1⟩
            exact ⟨kv, hkv, hk1.trans hsrc_tg.symm⟩
          · refine Or.inl ?_
            rw [gval_upsert_other _ _ _ _ hsrc_tg]
            by_cases htgt_tg : e.tgt = ae.movement.target
            · rw [htgt_tg, gval_upsert_self]
              have h1' : gval st.nodes ae.movement.target ≤
                  gval st.nodes e.src + (e.cost : WithTop ℚ) := htgt_tg ▸ h1
              exact le_trans (le_of_lt hrel) h1'
            · rw [gval_upsert_other _ _ _ _ htgt_tg]
              exact h1
        · exact Or.inr (Or.inl (key_mem_pushOpen _ _ _ _ h2))
        · rcases List.mem_cons.mp hae2 with rfl | hae2'
          · refine Or.inl ?_
            rw [← htgt2, ← hcost2, hsrc, gval_upsert_self,
              gval_upsert_other _ _ _ _ (Ne.symm htgt_ne_cur), hcur_gval]
          · exact Or.inr (Or.inr ⟨hsrc, ae2, hae2', htgt2, hcost2⟩)
      · rw [List.mem_singleton] at he
        subst he
        refine Or.inl ?_
        dsimp only
        rw [gval_upsert_self, gval_upsert_other _ _ _ _ (Ne.symm htgt_ne_cur), hcur_gval]
    · dsimp only
      intro p n hp cf hcf
      by_cases hptg : p = ae.movement.target
      · subst hptg
        rw [lookupNode_upsert_self] at hp
        injection hp with hp
        subst hp
        have hcfc : cf = current := by
          have h2 : some current = some cf := hcf
          injection h2 with h2
          exact h2.symm
        subst hcfc
        refine ⟨ae.cost, ae.movement.data, rfl, rfl,
          List.mem_append_right _ (List.mem_singleton.mpr rfl), ?_⟩
        rw [gval_upsert_other _ _ _ _ (Ne.symm htgt_ne_cur), hcur_gval]
      · rw [lookupNode_upsert_other _ _ _ _ hptg] at hp
        rcases hM.cf_rec p n hp cf hcf with ⟨c, d, h1, h2, h3, h4⟩
        refine ⟨c, d, h1, h2, List.mem_append_left _ h3, ?_⟩
        by_cases hcftg : cf = ae.movement.target
        · subst hcftg
          rw [gval_upsert_self]
          exact le_trans (add_le_add_right (le_of_lt hrel) _) h4
        · rw [gval_upsert_other _ _ _ _ hcftg]
          exact h4
    · dsimp only
      intro p n hp
      by_cases hptg : p = ae.movement.target
      · subst hptg
        refine Reaches.step _ _ current (lookupNode_upsert_self st.nodes _ _) rfl ?_
        exact reaches_upsert_avoid st.nodes start _ _ current hreach_cur hnoanc
      · rw [lookupNode_upsert_other _ _ _ _ hptg] at hp
        refine reaches_upsert_all st.nodes start _ current _ rfl ?_ p (hM.reach p n hp)
        exact reaches_upsert_avoid st.nodes start _ _ current hreach_cur hnoanc
    · exact fun ae2 h2 => hM.pend_sub ae2 (List.mem_cons_of_mem _ h2)
    · dsimp only
      refine ⟨ncur, ?_, hncur_g⟩
      rw [lookupNode_upsert_other _ _ _ _ (Ne.symm htgt_ne_cur)]
      exact hncur

/-- An exhausted pending list turns the mid-expansion invariant back into the
loop invariant. -/
theorem midInv_nil (start : P) (heuristic : P → ℚ) (successors : P → List (AEdge P M))
    (success : P → Bool) (current : P) (current_g : WithTop ℚ) (st : AStarState P M)
    (hM : MidInv start heuristic successors success current current_g st []) :
    AInv start heuristic successors success st := by
  refine ⟨hM.key_pos, hM.start_rec, hM.g_nonneg, hM.g_finite, hM.open_keys, hM.open_prio,
    hM.success_open, hM.gen_sound, ?_, hM.cf_rec, hM.reach⟩
  intro e he
  rcases hM.gen_relaxed3 e he with h1 | h2 | ⟨_, ae2, hae2, _⟩
  · exact Or.inl h1
  · exact Or.inr h2
  · exact absurd hae2 (List.not_mem_nil _)

/-- Relaxing a whole list of successor edges restores the loop invariant. -/
theorem foldl_relax_preserves (start : P) (heuristic : P → ℚ)
    (successors : P → List (AEdge P M)) (success : P → Bool)
    (current : P) (current_g : WithTop ℚ) (hnc : NonnegCosts successors) :
    ∀ (pending : List (AEdge P M)) (st : AStarState P M),
      MidInv start heuristic successors success current current_g st pending →
      AInv start heuristic successors success
        (pending.foldl (relaxEdge heuristic current current_g) st) := by
  intro pending
  induction pending with
  | nil => exact fun st hM => midInv_nil _ _ _ _ _ _ _ hM
  | cons ae pending ih =>
    intro st hM
    rw [List.foldl_cons]
    exact ih _ (relax_preserves _ _ _ _ _ _ _ _ _ hnc hM)

theorem lookupNode_singleton (start p : P) (n0 : ANode P M) :
    lookupNode [(start, n0)] p = if p = start then some n0 else none := by
  by_cases hp : p = start
  · subst hp
    rw [lookupNode, List.find?_cons_of_pos _ (by simp), if_pos rfl]
    rfl
  · rw [lookupNode, List.find?_cons_of_neg _ (by simpa using Ne.symm hp), if_neg hp]
    rfl

/-- The initial search state satisfies the invariant. -/
theorem aStarInit_inv (start : P) (heuristic : P → ℚ)
    (successors : P → List (AEdge P M)) (success : P → Bool) :
    AInv start heuristic successors success (aStarInit start : AStarState P M) := by
  rw [show (aStarInit start : AStarState P M) =
    ⟨[(start, (0 : WithTop ℚ))], [(start, ⟨start, none, none, (0 : WithTop ℚ), ⊤, none⟩)],
      []⟩ from rfl]
  refine ⟨?_, ?_, ?_, ?_, ?_, ?_, ?_, ?_, ?_, ?_, ?_⟩
  · dsimp only
    intro p n hp
    rw [lookupNode_singleton] at hp
    split_ifs at hp with h1
    · subst h1
      injection hp with hp
      subst hp
      rfl
  · dsimp only
    refine ⟨⟨start, none, none, (0 : WithTop ℚ), ⊤, none⟩, ?_, rfl, rfl⟩
    rw [lookupNode_singleton, if_pos rfl]
  · dsimp only
    intro p n hp
    rw [lookupNode_singleton] at hp
    split_ifs at hp with h1
    · injection hp with hp
      subst hp
      exact le_refl _
  · dsimp only
    intro p n hp
    rw [lookupNode_singleton] at hp
    split_ifs at hp with h1
    · injection hp with hp
      subst hp
      exact WithTop.zero_ne_top
  · dsimp only
    intro kv hkv
    rw [List.mem_singleton] at hkv
    subst hkv
    rw [lookupNode_singleton, if_pos rfl]
    rfl
  · dsimp only
    intro kv hkv
    rw [List.mem_singleton] at hkv
    subst hkv
    exact Or.inr ⟨rfl, rfl⟩
  · dsimp only
    intro p n hp hs
    rw [lookupNode_singleton] at hp
    split_ifs at hp with h1
    · exact ⟨(start, 0), List.mem_singleton.mpr rfl, h1.symm⟩
  · exact fun e he => absurd he (List.not_mem_nil _)
  · exact fun e he => absurd he (List.not_mem_nil _)
  · dsimp only
    intro p n hp cf hcf
    rw [lookupNode_singleton] at hp
    split_ifs at hp with h1
    · injection hp with hp
      subst hp
      exact absurd hcf (by simp)
  · dsimp only
    intro p n hp
    rw [lookupNode_singleton] at hp
    split_ifs at hp with h1
    · subst h1
      exact Reaches.refl

/-- A running step of the search loop preserves the invariant. -/
theorem aStarStep_preserves (start : P) (heuristic : P → ℚ)
    (successors : P → List (AEdge P M)) (success : P → Bool)
    (hnc : NonnegCosts successors) (st st2 : AStarState P M)
    (hI : AInv start heuristic successors success st)
    (h : aStarStep heuristic successors success st = .running st2) :
    AInv start heuristic successors success st2 := by
  rcases hpop : popMin st.open_set with _ | ⟨⟨current, pr⟩, open2⟩
  · rw [aStarStep, hpop] at h
    exact absurd h (by simp)
  · simp only [aStarStep, hpop, gval_def] at h
    by_cases hsucc : success current = true
    · rw [if_pos hsucc] at h
      exact absurd h (by simp)
    · rw [if_neg hsucc] at h
      injection h with h
      subst h
      have hperm := (popMin_spec st.open_set _ _ hpop).1
      have hmem_m : ((current, pr) : P × WithTop ℚ) ∈ st.open_set :=
        hperm.mem_iff.mpr (List.mem_cons_self _ _)
      have hmem_of : ∀ kv : P × WithTop ℚ, kv ∈ open2 → kv ∈ st.open_set := fun kv hkv =>
        hperm.mem_iff.mpr (List.mem_cons_of_mem _ hkv)
      have hcur_some := hI.open_keys _ hmem_m
      rcases Option.isSome_iff_exists.mp hcur_some with ⟨ncur, hncur⟩
      refine foldl_relax_preserves start heuristic successors success current _ hnc
        (successors current) _ ?_
      refine ⟨hI.key_pos, hI.start_rec, hI.g_nonneg, hI.g_finite, ?_, ?_, ?_,
        hI.gen_sound, ?_, hI.cf_rec, hI.reach, fun ae2 h2 => h2, ?_⟩
      · exact fun kv hkv => hI.open_keys kv (hmem_of kv hkv)
      · exact fun kv hkv => hI.open_prio kv (hmem_of kv hkv)
      · dsimp only
        intro p n hp hsucc2
        rcases hI.success_open p n hp hsucc2 with ⟨kv, hkv, hk1⟩
        rcases List.mem_cons.mp (hperm.mem_iff.mp hkv) with rfl | hkv2
        · have hpc : current = p := hk1
          subst hpc
          exact absurd hsucc2 hsucc
        · exact ⟨kv, hkv2, hk1⟩
      · dsimp only
        intro e he
        rcases hI.gen_relaxed e he with h1 | ⟨kv, hkv, hk1⟩
        · exact Or.inl h1
        · rcases List.mem_cons.mp (hperm.mem_iff.mp hkv) with rfl | hkv2
          · have hsrc : e.src = current := hk1.symm
            rcases hI.gen_sound e he with ⟨ae2, hae2, htgt2, hcost2⟩
            refine Or.inr (Or.inr ⟨hsrc, ae2, ?_, htgt2, hcost2⟩)
            rw [← hsrc]
            exact hae2
          · exact Or.inr (Or.inl ⟨kv, hkv2, hk1⟩)
      · dsimp only
        exact ⟨ncur, hncur, (gval_eq_g _ _ _ hncur).symm⟩

end AStarInvariant
section AStarWalk

variable {P M : Type} [DecidableEq P]

/-- `Reaches`, graded by the number of `came_from` steps. -/
inductive ReachesN (nodes : List (P × ANode P M)) (start : P) : P → Nat → Prop where
  | refl : ReachesN nodes start start 0
  | step (p : P) (n : ANode P M) (cf : P) (k : Nat) :
      lookupNode nodes p = some n → n.came_from = some cf →
      ReachesN nodes start cf k → ReachesN nodes start p (k + 1)

theorem reaches_to_reachesN (nodes : List (P × ANode P M)) (start p : P)
    (h : Reaches nodes start p) : ∃ k, ReachesN nodes start p k := by
  induction h with
  | refl => exact ⟨0, ReachesN.refl⟩
  | step p n cf hlook hcf _ ih =>
    rcases ih with ⟨k, hk⟩
    exact ⟨k + 1, ReachesN.step p n cf k hlook hcf hk⟩

/-- The `came_from` chain is deterministic, so the step count is a function of
the node. -/
theorem reachesN_det (nodes : List (P × ANode P M)) (start : P) (n0 : ANode P M)
    (hn0 : lookupNode nodes start = some n0) (hn0cf : n0.came_from = none) :
    ∀ p k k2, ReachesN nodes start p k → ReachesN nodes start p k2 → k = k2 := by
  intro p k k2 h1
  induction h1 generalizing k2 with
  | refl =>
    intro h2
    cases h2 with
    | refl => rfl
    | step _ n cf k3 hlook hcf _ =>
      rw [hn0] at hlook
      injection hlook with hlook
      subst hlook
      rw [hn0cf] at hcf
      exact absurd hcf (by simp)
  | step p n cf k hlook hcf hrec ih =>
    intro h2
    cases h2 with
    | refl =>
      rw [hn0] at hlook
      injection hlook with hlook
      subst hlook
      rw [hn0cf] at hcf
      exact absurd hcf (by simp)
    | step _ n2 cf2 k3 hlook2 hcf2 hrec2 =>
      rw [hlook] at hlook2
      injection hlook2 with he
      subst he
      rw [hcf] at hcf2
      injection hcf2 with he2
      subst he2
      rw [ih k3 hrec2]

/-- A node on the chain of `x` is reached in at most as many steps as `x`, with
equality only for `x` itself. -/
theorem anc_reachesN (nodes : List (P × ANode P M)) (start : P) (n0 : ANode P M)
    (hn0 : lookupNode nodes start = some n0) (hn0cf : n0.came_from = none)
    (x y : P) (hanc : Ancestor nodes x y) :
    ∀ k, ReachesN nodes start x k →
      ∃ j, ReachesN nodes start y j ∧ j ≤ k ∧ (j = k → x = y) := by
  induction hanc with
  | refl x => exact fun k hk => ⟨k, hk, le_refl _, fun _ => rfl⟩
  | step x n cf y hlook hcf hanc2 ih =>
    intro k hk
    cases hk with
    | refl =>
      rw [hn0] at hlook
      injection hlook with he
      subst he
      rw [hn0cf] at hcf
      exact absurd hcf (by simp)
    | step _ n2 cf2 k2 hlook2 hcf2 hrec2 =>
      rw [hlook] at hlook2
      injection hlook2 with he
      subst he
      rw [hcf] at hcf2
      injection hcf2 with he2
      subst he2
      rcases ih k2 hrec2 with ⟨j, hj, hjle, _⟩
      exact ⟨j, hj, le_trans hjle (Nat.le_succ _), fun hjk => by omega⟩

/-- The chain below `cf` never revisits `p` when `p` steps to `cf`. -/
theorem reachesN_no_revisit (nodes : List (P × ANode P M)) (start : P) (n0 : ANode P M)
    (hn0 : lookupNode nodes start = some n0) (hn0cf : n0.came_from = none)
    (p : P) (n : ANode P M) (cf : P) (k : Nat)
    (hlook : lookupNode nodes p = some n) (hcf : n.came_from = some cf)
    (hrec : ReachesN nodes start cf k) : ¬ Ancestor nodes cf p := by
  intro hanc
  rcases anc_reachesN nodes start n0 hn0 hn0cf cf p hanc k hrec with ⟨j, hj, hjle, _⟩
  have hdet := reachesN_det nodes start n0 hn0 hn0cf p j (k + 1) hj
    (ReachesN.step p n cf k hlook hcf hrec)
  omega

/-- Removing the binding of `p` leaves all other lookups unchanged. -/
theorem lookupNode_filter_ne (nodes : List (P × ANode P M)) (p q : P) (hne : q ≠ p) :
    lookupNode (nodes.filter (fun kv => decide (kv.1 ≠ p))) q = lookupNode nodes q := by
  induction nodes with
  | nil => rfl
  | cons kv rest ih =>
    by_cases hk : kv.1 = p
    · have hkq : ¬ kv.1 = q := fun habs => hne (habs ▸ hk)
      rw [List.filter_cons_of_neg (by simpa using hk)]
      conv_rhs => rw [lookupNode, List.find?_cons_of_neg _ (by simpa using hkq)]
      exact ih
    · rw [List.filter_cons_of_pos (by simpa using hk)]
      by_cases hq : kv.1 = q
      · conv_lhs => rw [lookupNode, List.find?_cons_of_pos _ (by simpa using hq)]
        conv_rhs => rw [lookupNode, List.find?_cons_of_pos _ (by simpa using hq)]
      · conv_lhs => rw [lookupNode, List.find?_cons_of_neg _ (by simpa using hq)]
        conv_rhs => rw [lookupNode, List.find?_cons_of_neg _ (by simpa using hq)]
        exact ih

/-- The chain of a node reached in `k` steps has `k + 1` distinct recorded
nodes. -/
theorem reachesN_chain_keys (nodes : List (P × ANode P M)) (start : P) (n0 : ANode P M)
    (hn0 : lookupNode nodes start = some n0) (hn0cf : n0.came_from = none)
    (k : Nat) (p : P) (h : ReachesN nodes start p k) :
    ∃ ks : List P, ks.length = k + 1 ∧ ks.Nodup ∧
      (∀ q ∈ ks, (lookupNode nodes q).isSome) ∧ (∀ q ∈ ks, Ancestor nodes p q) := by
  induction h with
  | refl =>
    refine ⟨[start], rfl, by simp, ?_, ?_⟩
    · intro q hq
      rw [List.mem_singleton] at hq
      subst hq
      rw [hn0]
      rfl
    · intro q hq
      rw [List.mem_singleton] at hq
      subst hq
      exact Ancestor.refl _
  | step p n cf k hlook hcf hrec ih =>
    rcases ih with ⟨ks, hlen, hnd, hpres, hanc⟩
    refine ⟨p :: ks, by simp [hlen], ?_, ?_, ?_⟩
    · refine List.nodup_cons.mpr ⟨?_, hnd⟩
      intro hmem
      exact reachesN_no_revisit nodes start n0 hn0 hn0cf p n cf k hlook hcf hrec
        (hanc p hmem)
    · intro q hq
      rcases List.mem_cons.mp hq with rfl | hq2
      · rw [hlook]
        rfl
      · exact hpres q hq2
    · intro q hq
      rcases List.mem_cons.mp hq with rfl | hq2
      · exact Ancestor.refl _
      · exact Ancestor.step p n cf q hlook hcf (hanc q hq2)

theorem lookupNode_isSome_mem_keys (nodes : List (P × ANode P M)) (q : P)
    (h : (lookupNode nodes q).isSome) : q ∈ nodes.map Prod.fst := by
  rw [lookupNode] at h
  rcases Option.isSome_iff_exists.mp h with ⟨n, hn⟩
  rcases Option.map_eq_some'.mp hn with ⟨kv, hkv, _⟩
  have hmem := List.mem_of_find?_eq_some hkv
  have hk : kv.1 = q := by simpa using List.find?_some hkv
  exact hk ▸ List.mem_map_of_mem Prod.fst hmem

theorem nodup_present_length_le (nodes : List (P × ANode P M)) (ks : List P)
    (hnd : ks.Nodup) (hpres : ∀ q ∈ ks, (lookupNode nodes q).isSome) :
    ks.length ≤ nodes.length := by
  have hsub : ks ⊆ nodes.map Prod.fst := fun q hq =>
    lookupNode_isSome_mem_keys _ _ (hpres q hq)
  have h2 := (hnd.subperm hsub).length_le
  simpa using h2

theorem expPath_snoc (gen : List (GenEdge P)) (p q : P) (es : List (GenEdge P))
    (e : GenEdge P) (hpath : ExpPath gen p q es) (he : e ∈ gen) (hsrc : e.src = q) :
    ExpPath gen p e.tgt (es ++ [e]) := by
  induction hpath with
  | nil r =>
    rw [List.nil_append, ← hsrc]
    exact ExpPath.cons e e.tgt [] he (ExpPath.nil e.tgt)
  | cons e2 q2 es2 he2 hrest ih =>
    rw [List.cons_append]
    exact ExpPath.cons e2 e.tgt (es2 ++ [e]) he2 (ih hsrc)

theorem chainCost_nil : chainCost ([] : List (GenEdge P)) = 0 := rfl

theorem chainCost_cons (e : GenEdge P) (es : List (GenEdge P)) :
    chainCost (e :: es) = e.cost + chainCost es := by
  simp [chainCost]

theorem chainCost_append (a b : List (GenEdge P)) :
    chainCost (a ++ b) = chainCost a + chainCost b := by
  simp [chainCost]

/-- The reconstruction walk follows the `came_from` chain of `p`, mirrors an
explored chain of edges whose total cost is bounded by the recorded `g`, and
emits the chain's movements goal-first. -/
theorem reconstructPathGo_spec (nodes : List (P × ANode P M)) (gen : List (GenEdge P))
    (start : P) (n0 : ANode P M)
    (hn0 : lookupNode nodes start = some n0) (hn0cf : n0.came_from = none)
    (hkey : ∀ p n, lookupNode nodes p = some n → n.position = p)
    (hcf : ∀ p n, lookupNode nodes p = some n → ∀ cf, n.came_from = some cf →
      ∃ c d, n.came_from_cost = some c ∧ n.movement_data = some d ∧
        (GenEdge.mk cf p c) ∈ gen ∧ gval nodes cf + (c : WithTop ℚ) ≤ n.g_score)
    (hg0 : n0.g_score = 0) :
    ∀ (k : Nat) (p : P), ReachesN nodes start p k →
      ∀ (fuel : Nat), k < fuel →
      ∀ (nodesW : List (P × ANode P M)),
        (∀ q, Ancestor nodes p q → lookupNode nodesW q = lookupNode nodes q) →
      ∀ (acc : List (AMovement P M)),
        ∃ (es : List (GenEdge P)) (ms : List (AMovement P M)),
          ExpPath gen start p es ∧
          ((chainCost es : ℚ) : WithTop ℚ) ≤ gval nodes p ∧
          ms.map (fun m => m.target) = es.map (fun e => e.tgt) ∧
          reconstructPathGo nodesW p acc fuel = acc ++ ms.reverse := by
  intro k p hreach
  induction hreach with
  | refl =>
    intro fuel hfuel nodesW hagree acc
    cases fuel with
    | zero => exact absurd hfuel (by omega)
    | succ fuel2 =>
      refine ⟨[], [], ExpPath.nil start, ?_, rfl, ?_⟩
      · rw [chainCost_nil, gval_eq_g _ _ _ hn0, hg0]
        exact_mod_cast le_refl (0 : ℚ)
      · have hlw := hagree start (Ancestor.refl start)
        simp only [reconstructPathGo, removeNode, hlw, hn0, hn0cf]
        simp
  | step p n cf k hlook hcfp hrec ih =>
    intro fuel hfuel nodesW hagree acc
    cases fuel with
    | zero => exact absurd hfuel (by omega)
    | succ fuel2 =>
      rcases hcf p n hlook cf hcfp with ⟨c, d, hccost, hmdata, hgen, hgle⟩
      have hnorev : ¬ Ancestor nodes cf p :=
        reachesN_no_revisit nodes start n0 hn0 hn0cf p n cf k hlook hcfp hrec
      have hagree2 : ∀ q, Ancestor nodes cf q →
          lookupNode (nodesW.filter (fun kv => decide (kv.1 ≠ p))) q =
            lookupNode nodes q := by
        intro q hq
        have hqp : q ≠ p := fun he => hnorev (he ▸ hq)
        rw [lookupNode_filter_ne _ _ _ hqp]
        exact hagree q (Ancestor.step p n cf q hlook hcfp hq)
      rcases ih fuel2 (by omega) (nodesW.filter (fun kv => decide (kv.1 ≠ p))) hagree2
        (acc ++ [⟨n.position, d⟩]) with ⟨es, ms, hpath, hcost, hmap, hwalk⟩
      refine ⟨es ++ [⟨cf, p, c⟩], ms ++ [⟨n.position, d⟩], ?_, ?_, ?_, ?_⟩
      · have h2 := expPath_snoc gen start cf es ⟨cf, p, c⟩ hpath hgen rfl
        simpa using h2
      · rw [chainCost_append, chainCost_cons, chainCost_nil, add_zero,
          gval_eq_g _ _ _ hlook, WithTop.coe_add]
        exact le_trans (add_le_add_right hcost _) hgle
      · have hpos : n.position = p := hkey p n hlook
        simp only [List.map_append, List.map_cons, List.map_nil, hmap]
        simp [hpos]
      · have hlw := hagree p (Ancestor.refl p)
        simp only [reconstructPathGo, removeNode, hlw, hlook, hcfp, hmdata]
        rw [hwalk]
        simp [List.reverse_append]

end AStarWalk
section AStarMain

variable {P M : Type} [DecidableEq P]

/-- Frontier lemma: along any explored chain, either every edge is relaxed (so
the end's `g` is bounded), or the chain passes through an open node whose `g` is
bounded by the chain prefix reaching it. -/
theorem astar_frontier (st : AStarState P M)
    (hrel : ∀ e ∈ st.gen,
      gval st.nodes e.tgt ≤ gval st.nodes e.src + (e.cost : WithTop ℚ) ∨
        ∃ kv ∈ st.open_set, kv.1 = e.src) :
    ∀ p q es, ExpPath st.gen p q es →
      gval st.nodes q ≤ gval st.nodes p + ((chainCost es : ℚ) : WithTop ℚ) ∨
      ∃ kv ∈ st.open_set, ∃ es1 es2, es = es1 ++ es2 ∧ ExpPath st.gen p kv.1 es1 ∧
        ExpPath st.gen kv.1 q es2 ∧
        gval st.nodes kv.1 ≤ gval st.nodes p + ((chainCost es1 : ℚ) : WithTop ℚ) := by
  intro p q es h
  induction h with
  | nil r =>
    refine Or.inl ?_
    rw [chainCost_nil, WithTop.coe_zero, add_zero]
  | cons e q2 es2 he hrest ih =>
    rcases hrel e he with h1 | ⟨kv, hkv, hk1⟩
    · rcases ih with h2 | ⟨kv, hkv, es1a, es2a, heq, hp1, hp2, hb⟩
      · refine Or.inl ?_
        calc gval st.nodes q2 ≤ gval st.nodes e.tgt + ↑(chainCost es2) := h2
          _ ≤ (gval st.nodes e.src + ↑e.cost) + ↑(chainCost es2) := add_le_add_right h1 _
          _ = gval st.nodes e.src + ↑(chainCost (e :: es2)) := by
              rw [chainCost_cons, WithTop.coe_add, add_assoc]
      · refine Or.inr ⟨kv, hkv, e :: es1a, es2a, by rw [heq, List.cons_append],
          ExpPath.cons e kv.1 es1a he hp1, hp2, ?_⟩
        calc gval st.nodes kv.1 ≤ gval st.nodes e.tgt + ↑(chainCost es1a) := hb
          _ ≤ (gval st.nodes e.src + ↑e.cost) + ↑(chainCost es1a) := add_le_add_right h1 _
          _ = gval st.nodes e.src + ↑(chainCost (e :: es1a)) := by
              rw [chainCost_cons, WithTop.coe_add, add_assoc]
    · refine Or.inr ⟨kv, hkv, [], e :: es2, by simp, ?_, ?_, ?_⟩
      · rw [hk1]
        exact ExpPath.nil e.src
      · rw [hk1]
        exact ExpPath.cons e q2 es2 he hrest
      · rw [hk1, chainCost_nil, WithTop.coe_zero, add_zero]

/-- Every explored chain is a path of the successor graph with the same cost. -/
theorem expPath_succPath (gen : List (GenEdge P)) (successors : P → List (AEdge P M))
    (hgs : ∀ e ∈ gen, ∃ ae ∈ successors e.src, ae.movement.target = e.tgt ∧ ae.cost = e.cost)
    (p q : P) (es : List (GenEdge P)) (h : ExpPath gen p q es) :
    SuccPath successors p q (chainCost es) := by
  induction h with
  | nil r => exact SuccPath.nil r
  | cons e q2 es2 he hrest ih =>
    rcases hgs e he with ⟨ae, hae, htgt, hcost⟩
    have h2 : SuccPath successors e.src q2 (ae.cost + chainCost es2) := by
      refine SuccPath.cons e.src q2 ae (chainCost es2) hae ?_
      rw [htgt]
      exact ih
    rw [chainCost_cons, ← hcost]
    exact h2

theorem chainCost_nonneg (gen : List (GenEdge P)) (successors : P → List (AEdge P M))
    (hnc : NonnegCosts successors)
    (hgs : ∀ e ∈ gen, ∃ ae ∈ successors e.src, ae.movement.target = e.tgt ∧ ae.cost = e.cost)
    (p q : P) (es : List (GenEdge P)) (h : ExpPath gen p q es) : 0 ≤ chainCost es := by
  induction h with
  | nil r => exact le_refl 0
  | cons e q2 es2 he hrest ih =>
    rw [chainCost_cons]
    rcases hgs e he with ⟨ae, hae, _, hcost⟩
    have h2 := hnc _ _ hae
    rw [hcost] at h2
    exact add_nonneg h2 ih

/-- When a success node is popped, its priority is its `g`, and its `g` is a
lower bound on the cost of every explored chain reaching a success node. -/
theorem astar_pop_min (start : P) (heuristic : P → ℚ)
    (successors : P → List (AEdge P M)) (success : P → Bool) (st : AStarState P M)
    (hI : AInv start heuristic successors success st)
    (hadm : Admissible heuristic successors success)
    (hnh : NonnegHeuristic heuristic) (hnc : NonnegCosts successors)
    (goal : P) (pr : WithTop ℚ) (open2 : List (P × WithTop ℚ))
    (hpop : popMin st.open_set = some ((goal, pr), open2))
    (hgoal : success goal = true) :
    pr = gval st.nodes goal ∧
    ∀ q es, ExpPath st.gen start q es → success q = true →
      gval st.nodes goal ≤ ((chainCost es : ℚ) : WithTop ℚ) := by
  rcases popMin_spec st.open_set _ _ hpop with ⟨hperm, hmin⟩
  have hmemg : ((goal, pr) : P × WithTop ℚ) ∈ st.open_set :=
    hperm.mem_iff.mpr (List.mem_cons_self _ _)
  have hzero : ∀ q, success q = true → heuristic q = 0 := fun q hq =>
    le_antisymm (hadm q q 0 (SuccPath.nil q) hq) (hnh q)
  have hstart0 : gval st.nodes start = 0 := by
    rcases hI.start_rec with ⟨n0, hn0, hg, _⟩
    rw [gval_eq_g _ _ _ hn0, hg]
  have hprval : ∀ kv : P × WithTop ℚ, kv ∈ st.open_set → success kv.1 = true →
      kv.2 = gval st.nodes kv.1 := by
    intro kv hkv hkq
    rcases hI.open_prio kv hkv with h1 | ⟨hs, h0⟩
    · rw [h1, hzero kv.1 hkq, WithTop.coe_zero, add_zero]
    · rw [h0, hs, hstart0]
  have hpr : pr = gval st.nodes goal := hprval (goal, pr) hmemg hgoal
  refine ⟨hpr, ?_⟩
  intro q es hes hq
  have hCnn : (0 : ℚ) ≤ chainCost es := chainCost_nonneg _ _ hnc hI.gen_sound _ _ _ hes
  rcases astar_frontier st hI.gen_relaxed start q es hes with
    h1 | ⟨kv, hkv, es1, es2, heq, hp1, hp2, hb⟩
  · rw [hstart0, zero_add] at h1
    have hqtop : gval st.nodes q ≠ ⊤ := ne_top_of_le_ne_top WithTop.coe_ne_top h1
    have hsome : (lookupNode st.nodes q).isSome := by
      rcases hl : lookupNode st.nodes q with _ | nq
      · rw [gval, hl] at hqtop
        simp at hqtop
      · rfl
    rcases Option.isSome_iff_exists.mp hsome with ⟨nq, hnq⟩
    rcases hI.success_open q nq hnq hq with ⟨kvq, hkvq, hkq1⟩
    calc gval st.nodes goal = pr := hpr.symm
      _ ≤ kvq.2 := hmin kvq hkvq
      _ = gval st.nodes kvq.1 := hprval kvq hkvq (by rw [hkq1]; exact hq)
      _ = gval st.nodes q := by rw [hkq1]
      _ ≤ ↑(chainCost es) := h1
  · rw [hstart0, zero_add] at hb
    have hp2s : SuccPath successors kv.1 q (chainCost es2) :=
      expPath_succPath _ _ hI.gen_sound _ _ _ hp2
    have hh2 : heuristic kv.1 ≤ chainCost es2 := hadm _ _ _ hp2s hq
    rcases hI.open_prio kv hkv with hkv2 | ⟨hs, h0⟩
    · calc gval st.nodes goal = pr := hpr.symm
        _ ≤ kv.2 := hmin kv hkv
        _ = gval st.nodes kv.1 + ↑(heuristic kv.1) := hkv2
        _ ≤ ↑(chainCost es1) + ↑(chainCost es2) := add_le_add hb (by exact_mod_cast hh2)
        _ = ↑(chainCost es) := by rw [heq, chainCost_append, WithTop.coe_add]
    · calc gval st.nodes goal = pr := hpr.symm
        _ ≤ kv.2 := hmin kv hkv
        _ = 0 := h0
        _ ≤ ↑(chainCost es) := by exact_mod_cast hCnn

/-- A run of the search loop that returns a path ends by popping a success node
from a state satisfying the invariant. -/
theorem aStarLoop_success (start : P) (heuristic : P → ℚ)
    (successors : P → List (AEdge P M)) (success : P → Bool)
    (hnc : NonnegCosts successors) :
    ∀ (fuel : Nat) (st : AStarState P M),
      AInv start heuristic successors success st →
      ∀ (r : List (AMovement P M)) (final : AStarState P M),
        aStarLoop heuristic successors success fuel st = some (some r, final) →
        ∃ (st2 : AStarState P M) (goal : P) (pr : WithTop ℚ)
          (open2 : List (P × WithTop ℚ)),
          AInv start heuristic successors success st2 ∧
          popMin st2.open_set = some ((goal, pr), open2) ∧ success goal = true ∧
          r = reconstruct_path st2.nodes goal ∧
          final.nodes = st2.nodes ∧ final.gen = st2.gen := by
  intro fuel
  induction fuel with
  | zero =>
    intro st _ r final h
    rw [aStarLoop] at h
    exact absurd h (by simp)
  | succ fuel ih =>
    intro st hI r final h
    rcases hstep : aStarStep heuristic successors success st with ⟨r0, final0⟩ | st3
    · simp only [aStarLoop, hstep] at h
      injection h with h
      injection h with h1 h2
      subst h2
      rcases hpop : popMin st.open_set with _ | ⟨⟨current, pr⟩, open2⟩
      · simp only [aStarStep, hpop] at hstep
        injection hstep with he1 he2
        rw [← he1] at h1
        exact absurd h1 (by simp)
      · simp only [aStarStep, hpop] at hstep
        by_cases hsucc : success current = true
        · rw [if_pos hsucc] at hstep
          injection hstep with he1 he2
          refine ⟨st, current, pr, open2, hI, hpop, hsucc, ?_, ?_, ?_⟩
          · rw [← he1] at h1
            injection h1 with h1
            exact h1.symm
          · exact (congrArg AStarState.nodes he2).symm
          · exact (congrArg AStarState.gen he2).symm
        · rw [if_neg hsucc] at hstep
          exact absurd hstep (by simp)
    · simp only [aStarLoop, hstep] at h
      exact ih st3 (aStarStep_preserves start heuristic successors success hnc st st3
        hI hstep) r final h

end AStarMain
/-- Successor function of the C1 counterexample graph: from node 0, an edge to
node 1 of cost 1 and an edge to node 2 of cost 5. -/
def ceSuccessors : Nat → List (AEdge Nat Unit) := fun n =>
  if n = 0 then [⟨⟨1, ()⟩, 1⟩, ⟨⟨2, ()⟩, 5⟩] else []

/-- Heuristic of the C1 counterexample: `-10` at node 2, `0` elsewhere.  It never
exceeds the true remaining cost, but is negative at a goal. -/
def ceHeuristic : Nat → ℚ := fun n => if n = 2 then -10 else 0

/-- Goal predicate of the C1 counterexample: nodes 1 and 2 are goals. -/
def ceSuccess : Nat → Bool := fun n => n == 1 || n == 2

theorem ceAdmissible : Admissible ceHeuristic ceSuccessors ceSuccess := by
  intro p q c hsp hq
  cases hsp with
  | nil =>
    rw [ceHeuristic]
    by_cases h2 : p = 2
    · rw [if_pos h2]
      norm_num
    · rw [if_neg h2]
  | cons p q e c he hsp2 =>
    rw [ceSuccessors] at he
    by_cases h0 : p = 0
    · rw [if_pos h0] at he
      subst h0
      rw [ceHeuristic, if_neg (by norm_num)]
      cases hsp2 with
      | nil =>
        rcases List.mem_cons.mp he with rfl | he3
        · norm_num
        · rcases List.mem_singleton.mp he3 with rfl
          norm_num
      | cons _ _ e2 c2 he2 _ =>
        rcases List.mem_cons.mp he with rfl | he3
        · rw [ceSuccessors] at he2
          simp at he2
        · rcases List.mem_singleton.mp he3 with rfl
          rw [ceSuccessors] at he2
          simp at he2
    · rw [if_neg h0] at he
      exact absurd he (List.not_mem_nil _)

section AStarTheorem

variable {P M : Type} [DecidableEq P]

/-- C1 (amended): with an admissible, nonnegative heuristic and nonnegative edge
costs, whenever `a_star` returns a path, that path retraces an explored chain of
edges from the start to a goal node, and the total cost of this chain is minimal
among all explored chains that reach a goal node.  (The original claim omits the
nonnegativity of the heuristic; `C1_astar_admissibility_counterexample` shows it
false as stated.) -/
theorem C1_astar_admissibility (start : P) (heuristic : P → ℚ)
    (successors : P → List (AEdge P M)) (success : P → Bool) (fuel : Nat)
    (r : List (AMovement P M)) (final : AStarState P M)
    (hadm : Admissible heuristic successors success)
    (hnh : NonnegHeuristic heuristic) (hnc : NonnegCosts successors)
    (hrun : a_star start heuristic successors success fuel = some (some r, final)) :
    ∃ goal es, success goal = true ∧ ExpPath final.gen start goal es ∧
      r.map (fun m => m.target) = es.map (fun e => e.tgt) ∧
      ∀ q es2, ExpPath final.gen start q es2 → success q = true →
        chainCost es ≤ chainCost es2 := by
  rw [a_star] at hrun
  rcases aStarLoop_success start heuristic successors success hnc fuel _
      (aStarInit_inv start heuristic successors success) r final hrun with
    ⟨st2, goal, pr, open2, hI, hpop, hgoal, hr, hnodes, hgen⟩
  rcases astar_pop_min start heuristic successors success st2 hI hadm hnh hnc goal pr
      open2 hpop hgoal with ⟨hpr, hmin⟩
  rcases popMin_spec st2.open_set _ _ hpop with ⟨hperm, _⟩
  have hmemg : ((goal, pr) : P × WithTop ℚ) ∈ st2.open_set :=
    hperm.mem_iff.mpr (List.mem_cons_self _ _)
  have hgsome := hI.open_keys _ hmemg
  rcases Option.isSome_iff_exists.mp hgsome with ⟨ng, hng⟩
  rcases hI.start_rec with ⟨n0, hn0, hn0g, hn0cf⟩
  rcases reaches_to_reachesN _ _ _ (hI.reach goal ng hng) with ⟨k, hk⟩
  rcases reachesN_chain_keys st2.nodes start n0 hn0 hn0cf k goal hk with
    ⟨ks, hkslen, hksnd, hkspres, _⟩
  have hkbound : k < st2.nodes.length := by
    have h2 := nodup_present_length_le st2.nodes ks hksnd hkspres
    omega
  rcases reconstructPathGo_spec st2.nodes st2.gen start n0 hn0 hn0cf hI.key_pos
      hI.cf_rec hn0g k goal hk st2.nodes.length hkbound st2.nodes (fun q _ => rfl) []
    with ⟨es, ms, hpath, hcost, hmap, hwalk⟩
  refine ⟨goal, es, hgoal, ?_, ?_, ?_⟩
  · rw [hgen]
    exact hpath
  · have hrr : r = ms := by
      rw [hr, reconstruct_path, hwalk]
      simp
    rw [hrr, hmap]
  · intro q es2 hes2 hq
    rw [hgen] at hes2
    have h1 := hmin q es2 hes2 hq
    have h2 : ((chainCost es : ℚ) : WithTop ℚ) ≤ ((chainCost es2 : ℚ) : WithTop ℚ) :=
      le_trans hcost h1
    exact_mod_cast h2

end AStarTheorem

/-- Witness for C1 at a concrete one-node graph: the goal is the start, the
search returns the empty path, and the empty explored chain is minimal. -/
theorem C1_astar_admissibility_witness :
    (a_star 0 (fun _ => (0 : ℚ)) (fun _ => ([] : List (AEdge Nat Unit)))
        (fun n => n == 0) 1 =
      some (some [], ⟨[], [(0, ⟨0, none, none, (0 : WithTop ℚ), ⊤, none⟩)], []⟩)) ∧
    (∃ goal es, ((fun n : Nat => n == 0) goal = true) ∧
      ExpPath ((⟨[], [(0, ⟨0, none, none, (0 : WithTop ℚ), ⊤, none⟩)], []⟩ :
        AStarState Nat Unit)).gen 0 goal es ∧
      ([] : List (AMovement Nat Unit)).map (fun m => m.target) =
        es.map (fun e => e.tgt) ∧
      ∀ q es2, ExpPath ((⟨[], [(0, ⟨0, none, none, (0 : WithTop ℚ), ⊤, none⟩)], []⟩ :
          AStarState Nat Unit)).gen 0 q es2 → (fun n : Nat => n == 0) q = true →
        chainCost es ≤ chainCost es2) := by
  refine ⟨by decide, ?_⟩
  refine C1_astar_admissibility 0 (fun _ => (0 : ℚ))
    (fun _ => ([] : List (AEdge Nat Unit))) (fun n => n == 0) 1 []
    ⟨[], [(0, ⟨0, none, none, (0 : WithTop ℚ), ⊤, none⟩)], []⟩ ?_ ?_ ?_ (by decide)
  · intro p q c hsp hq
    cases hsp with
    | nil => exact le_refl 0
    | cons p q e c he hsp2 => exact absurd he (List.not_mem_nil _)
  · exact fun p => le_refl 0
  · exact fun p e he => absurd he (List.not_mem_nil _)

/-- The run of the counterexample search, evaluated: node 2 is popped first
(its priority `5 - 10 = -5` undercuts node 1's priority `1`), so the returned
path is the single cost-5 movement to node 2, and the ghost `gen` list records
the two explored edges. -/
theorem ce_run : a_star 0 ceHeuristic ceSuccessors ceSuccess 3 =
    some (some [⟨2, ()⟩],
      ⟨[(1, ((1 : ℚ) : WithTop ℚ))],
       [(0, ⟨0, none, none, (0 : WithTop ℚ), ⊤, none⟩),
        (1, ⟨1, some (), some 0, ((1 : ℚ) : WithTop ℚ), ((1 : ℚ) : WithTop ℚ), some 1⟩),
        (2, ⟨2, some (), some 0, ((5 : ℚ) : WithTop ℚ), ((-5 : ℚ) : WithTop ℚ), some 5⟩)],
       [⟨0, 1, 1⟩, ⟨0, 2, 5⟩]⟩) := by
  norm_num [a_star, aStarLoop, aStarStep, aStarInit, ceSuccess, ceSuccessors, ceHeuristic,
    popMin, expand, relaxEdge, lookupNode, upsertNode, pushOpen, reconstruct_path,
    reconstructPathGo, removeNode, List.find?, List.filter, ← WithTop.coe_add,
    WithTop.coe_le_coe, WithTop.coe_lt_top, -WithTop.coe_ofNat, -WithTop.coe_one,
    -WithTop.coe_zero, -WithTop.LinearOrderedAddCommGroup.coe_neg]

/-- C1 counterexample to the claim as stated: an admissible heuristic that is
negative at a goal node.  From 0 the edges go to goals 1 (cost 1) and 2
(cost 5); the heuristic `-10` at 2 makes the search pop 2 first and return the
cost-5 path, while the explored chain to goal 1 costs 1 — the returned path's
cost is not the minimum among explored chains reaching a goal. -/
theorem C1_astar_admissibility_counterexample :
    Admissible ceHeuristic ceSuccessors ceSuccess ∧
    (a_star 0 ceHeuristic ceSuccessors ceSuccess 3).map Prod.fst =
      some (some [⟨2, ()⟩]) ∧
    (a_star 0 ceHeuristic ceSuccessors ceSuccess 3).map (fun x => x.2.gen) =
      some [⟨0, 1, 1⟩, ⟨0, 2, 5⟩] ∧
    ExpPath [⟨0, 1, 1⟩, ⟨0, 2, 5⟩] 0 1 [⟨0, 1, 1⟩] ∧ ceSuccess 1 = true ∧
    chainCost [(⟨0, 1, 1⟩ : GenEdge Nat)] = 1 ∧
    (∀ es, ExpPath [⟨0, 1, 1⟩, ⟨0, 2, 5⟩] 0 2 es →
      es.map (fun e => e.tgt) = [2] → chainCost es = 5) ∧
    (1 : ℚ) < 5 := by
  refine ⟨ceAdmissible, by simp [ce_run], by simp [ce_run], ?_, by decide,
    by norm_num [chainCost], ?_, by norm_num⟩
  · exact ExpPath.cons ⟨0, 1, 1⟩ 1 [] (List.mem_cons_self _ _) (ExpPath.nil 1)
  · suffices h : ∀ (p : Nat) es, ExpPath [⟨0, 1, 1⟩, ⟨0, 2, 5⟩] p 2 es →
        es.map (fun e => e.tgt) = [2] → chainCost es = 5 by
      exact h 0
    intro p es hes hmap
    cases hes with
    | nil => simp at hmap
    | cons e q2 es2 he htail =>
      rw [List.map_cons] at hmap
      injection hmap with h1 h2
      have hes2 : es2 = [] := by
        rcases es2 with _ | ⟨e2, es3⟩
        · rfl
        · simp at h2
      subst hes2
      rcases List.mem_cons.mp he with rfl | he2
      · exact absurd h1 (by decide)
      · rcases List.mem_singleton.mp he2 with rfl
        norm_num [chainCost]
/-! ## Path execution (azalea/src/pathfinder/execute.rs, mod.rs)

`tick_execute_path` for one entity on one tick.  The bevy events it sends
(look-at, jump, sprint/walk) do not feed back into the loop's state within the
tick, and the physics snapshot is fixed for the whole tick, so the loop is a
function of the path state, the entity's position and `on_ground` flag, and a
`can_walk_to_position` oracle.  `can_walk_to_position` itself is modelled with
the physics simulation abstracted into a step function: `physStep k` is the
simulated position and `horizontal_collision` flag after `k + 1` ticks. -/

/-- Modelled from the spec (`azalea-core`'s `From<&Vec3> for BlockPos` is not
among the provided sources): the block containing a position, flooring each
coordinate. -/
def BlockPos.fromVec3 (p : Vec3) : BlockPos :=
  ⟨Int.floor p.x, Int.floor p.y, Int.floor p.z⟩

/-- `is_reached(goal_pos, current_pos, physics)` (pathfinder/mod.rs): the
entity's block position equals the goal and it is on the ground. -/
def is_reached (goal_pos : BlockPos) (current_pos : Vec3) (on_ground : Bool) : Bool :=
  decide (BlockPos.fromVec3 current_pos = goal_pos) && on_ground

/-- `path.clone().into_iter().enumerate().skip(2).take(10).rev()`. -/
def potentialTargets (path : List PathMovement) : List (Nat × PathMovement) :=
  ((path.enum.drop 2).take 10).reverse

/-- The `for (i, movement) in &potential_targets` scan: at the first entry whose
target the oracle accepts, `path.split_off(i)` keeps the suffix from `i`. -/
def skipAhead (canWalk : BlockPos → Bool) (path : List PathMovement) :
    List PathMovement :=
  match (potentialTargets path).find? (fun im => canWalk im.2.target) with
  | none => path
  | some im => path.drop im.1

/-- The pathfinder state `tick_execute_path` reads and writes. -/
structure PathfinderExecState where
  path : List PathMovement
  queued_path : Option (List PathMovement)
  current_target_node : Option BlockPos
deriving DecidableEq, Repr

/-- The `loop` of `tick_execute_path`, with explicit fuel: an empty path breaks;
otherwise skip ahead, commit to the front movement, and when it `is_reached`
swap in the queued path (if any) or pop the front and go round again. -/
def tickExecuteGo (canWalk : BlockPos → Bool) (position : Vec3) (on_ground : Bool) :
    Nat → PathfinderExecState → PathfinderExecState
  | 0, st => st
  | fuel + 1, st =>
    if st.path.isEmpty then st
    else
      match skipAhead canWalk st.path with
      | [] => { st with path := [] }
      | movement :: restPath =>
        let st2 : PathfinderExecState :=
          { path := movement :: restPath,
            queued_path := st.queued_path,
            current_target_node := some movement.target }
        if is_reached movement.target position on_ground then
          match st2.queued_path with
          | some new_path =>
            tickExecuteGo canWalk position on_ground fuel
              { path := new_path, queued_path := none,
                current_target_node := st2.current_target_node }
          | none =>
            tickExecuteGo canWalk position on_ground fuel
              { st2 with path := restPath }
        else st2

/-- `tick_execute_path` for one entity on one tick.  Each iteration either
breaks, pops a path element, or consumes the queued path, so the fuel
`path.length + queued.length + 1` covers every iteration the Rust loop makes. -/
def tick_execute_path (canWalk : BlockPos → Bool) (position : Vec3) (on_ground : Bool)
    (st : PathfinderExecState) : PathfinderExecState :=
  tickExecuteGo canWalk position on_ground
    (st.path.length + (st.queued_path.getD []).length + 1) st

/-- The `for _ in 0..20` loop of `can_walk_to_position`: tick, then give up on a
changed `y` or a horizontal collision, succeed on reaching the target block. -/
def canWalkGo (physStep : Nat → Vec3 × Bool) (start_y : ℚ) (target : BlockPos) :
    Nat → Nat → Bool
  | 0, _ => false
  | fuel + 1, k =>
    if decide ((physStep k).1.y ≠ start_y) || (physStep k).2 then false
    else if decide (BlockPos.fromVec3 (physStep k).1 = target) then true
    else canWalkGo physStep start_y target fuel (k + 1)

/-- `can_walk_to_position(chunks, player, settings)`: a 20-tick simulation. -/
def can_walk_to_position (physStep : Nat → Vec3 × Bool) (start_pos : Vec3)
    (target : BlockPos) : Bool :=
  canWalkGo physStep start_pos.y target 20 0

/-! ### Lemmas about the executor -/

theorem potentialTargets_mem (path : List PathMovement) (i : Nat) (m : PathMovement) :
    (i, m) ∈ potentialTargets path ↔
      2 ≤ i ∧ i < min path.length 12 ∧ path.get? i = some m := by
  rw [potentialTargets, List.mem_reverse]
  constructor
  · intro h
    rcases List.mem_iff_get?.mp h with ⟨j, hj⟩
    by_cases hj10 : j < 10
    · rw [List.get?_take hj10, List.get?_drop, List.get?_enum] at hj
      rcases hget : path.get? (2 + j) with _ | m2
      · rw [hget] at hj
        simp at hj
      · rw [hget] at hj
        injection hj with hj
        injection hj with hj1 hj2
        subst hj2
        have hi : i = 2 + j := hj1.symm
        subst hi
        rcases List.get?_eq_some.mp hget with ⟨hlen, _⟩
        exact ⟨by omega, lt_min hlen (by omega), hget⟩
    · have hnone : ((path.enum.drop 2).take 10).get? j = none := by
        rw [List.get?_eq_none]
        calc ((path.enum.drop 2).take 10).length ≤ 10 := List.length_take_le 10 _
          _ ≤ j := by omega
      rw [hnone] at hj
      exact absurd hj (by simp)
  · rintro ⟨h2, hmin, hget⟩
    refine List.mem_iff_get?.mpr ⟨i - 2, ?_⟩
    have h12 : i < 12 := lt_of_lt_of_le hmin (min_le_right _ _)
    rw [List.get?_take (by omega), List.get?_drop, show 2 + (i - 2) = i from by omega,
      List.get?_enum, hget]
    rfl

theorem skipAhead_found (canWalk : BlockPos → Bool) (path : List PathMovement)
    (i : Nat) (m : PathMovement)
    (h : (potentialTargets path).find? (fun im => canWalk im.2.target) = some (i, m)) :
    skipAhead canWalk path = path.drop i := by
  rw [skipAhead, h]

theorem dropWhile_head_false {α : Type} (p : α → Bool) :
    ∀ (l : List α) (m : α) (rest : List α), l.dropWhile p = m :: rest → p m = false := by
  intro l
  induction l with
  | nil =>
    intro m rest h
    simp at h
  | cons a l2 ih =>
    intro m rest h
    rw [List.dropWhile_cons] at h
    by_cases hp : p a = true
    · rw [if_pos hp] at h
      exact ih m rest h
    · rw [if_neg hp] at h
      injection h with h1 h2
      subst h1
      rw [Bool.not_eq_true] at hp
      exact hp

theorem tickExecuteGo_no_skip (position : Vec3) (on_ground : Bool) :
    ∀ (path : List PathMovement) (fuel : Nat) (ctn : Option BlockPos),
      path.length < fuel →
      (tickExecuteGo (fun _ => false) position on_ground fuel ⟨path, none, ctn⟩).path =
        path.dropWhile (fun m2 => is_reached m2.target position on_ground) := by
  intro path
  induction path with
  | nil =>
    intro fuel ctn hfuel
    cases fuel with
    | zero => omega
    | succ fuel2 => simp [tickExecuteGo]
  | cons m rest ih =>
    intro fuel ctn hfuel
    cases fuel with
    | zero => omega
    | succ fuel2 =>
      have hfind : (potentialTargets (m :: rest)).find?
          (fun im => (fun _ => false : BlockPos → Bool) im.2.target) = none :=
        List.find?_eq_none.mpr (fun x _ => by simp)
      have hskip : skipAhead (fun _ => false) (m :: rest) = m :: rest := by
        simp [skipAhead, hfind]
      rw [List.dropWhile_cons]
      by_cases hreach : is_reached m.target position on_ground = true
      · rw [if_pos hreach]
        have hrec := ih fuel2 (some m.target) (by simp at hfuel ⊢; omega)
        rw [← hrec]
        simp only [tickExecuteGo, List.isEmpty_cons, Bool.false_eq_true, if_false, hskip,
          hreach, if_true]
      · rw [if_neg hreach]
        simp only [tickExecuteGo, List.isEmpty_cons, Bool.false_eq_true, if_false, hskip,
          hreach]

theorem canWalkGo_iff (physStep : Nat → Vec3 × Bool) (sy : ℚ) (target : BlockPos) :
    ∀ (fuel k : Nat), canWalkGo physStep sy target fuel k = true ↔
      ∃ j, j < fuel ∧ BlockPos.fromVec3 (physStep (k + j)).1 = target ∧
        ∀ j2 ≤ j, (physStep (k + j2)).1.y = sy ∧ (physStep (k + j2)).2 = false := by
  intro fuel
  induction fuel with
  | zero =>
    intro k
    simp [canWalkGo]
  | succ fuel2 ih =>
    intro k
    rw [canWalkGo]
    by_cases hbad : (decide ((physStep k).1.y ≠ sy) || (physStep k).2) = true
    · rw [if_pos hbad]
      rw [Bool.or_eq_true, decide_eq_true_eq] at hbad
      constructor
      · intro h
        exact absurd h (by simp)
      · rintro ⟨j, hj, _, hall⟩
        rcases hall 0 (Nat.zero_le _) with ⟨hy, hc⟩
        rw [Nat.add_zero] at hy hc
        rcases hbad with hbad | hbad
        · exact absurd hy hbad
        · rw [hbad] at hc
          exact absurd hc (by simp)
    · rw [if_neg hbad]
      rw [Bool.or_eq_true, decide_eq_true_eq] at hbad
      push_neg at hbad
      rcases hbad with ⟨hy0, hc0⟩
      by_cases hhit : decide (BlockPos.fromVec3 (physStep k).1 = target) = true
      · rw [if_pos hhit]
        rw [decide_eq_true_eq] at hhit
        constructor
        · intro _
          refine ⟨0, by omega, by rw [Nat.add_zero]; exact hhit, ?_⟩
          intro j2 hj2
          rw [Nat.le_zero] at hj2
          subst hj2
          rw [Nat.add_zero]
          exact ⟨hy0, by simpa using hc0⟩
        · intro _
          rfl
      · rw [if_neg hhit]
        rw [decide_eq_true_eq] at hhit
        rw [ih (k + 1)]
        constructor
        · rintro ⟨j, hj, hblock, hall⟩
          refine ⟨j + 1, by omega, ?_, ?_⟩
          · rw [show k + (j + 1) = k + 1 + j from by omega]
            exact hblock
          · intro j2 hj2
            cases j2 with
            | zero =>
              rw [Nat.add_zero]
              exact ⟨hy0, by simpa using hc0⟩
            | succ j3 =>
              rw [show k + (j3 + 1) = k + 1 + j3 from by omega]
              exact hall j3 (by omega)
        · rintro ⟨j, hj, hblock, hall⟩
          cases j with
          | zero =>
            rw [Nat.add_zero] at hblock
            exact absurd hblock hhit
          | succ j3 =>
            refine ⟨j3, by omega, ?_, ?_⟩
            · rw [show k + 1 + j3 = k + (j3 + 1) from by omega]
              exact hblock
            · intro j2 hj2
              rw [show k + 1 + j2 = k + (j2 + 1) from by omega]
              exact hall (j2 + 1) (by omega)
/-- A 13-movement straight path for the C6 counterexample. -/
def cePath : List PathMovement :=
  (List.range 13).map (fun i => ⟨⟨(i : Int), 0, 0⟩, ⟨false⟩⟩)

/-- The skip oracle of the C6 counterexample: only the block at `x = 11` can be
walked to. -/
def ceCanWalk : BlockPos → Bool := fun b => b.x == 11

/-- C6 (amended): each tick the executor pops the front movement while its
target `is_reached` (block position equal and on ground; first conjuncts with
the trivial oracle and no queued path: final path = `dropWhile` reached, and a
nonempty final path starts with an unreached movement); the skip-ahead scan
tries exactly the indices `i` with `2 ≤ i < min(len, 12)` — `skip(2).take(10)`,
not the claim's `[2..min(len,10))` — in reverse order, truncating at the first
accepted one; and the 20-tick simulation succeeds exactly when some tick
`k < 20` lands in the target block with the `y` coordinate unchanged and no
horizontal collision up to and including that tick. -/
theorem C6_path_executor (canWalk : BlockPos → Bool) (physStep : Nat → Vec3 × Bool)
    (position start_pos : Vec3) (on_ground : Bool) (path : List PathMovement)
    (i : Nat) (m : PathMovement) (ctn : Option BlockPos) (target : BlockPos) :
    ((i, m) ∈ potentialTargets path ↔
      2 ≤ i ∧ i < min path.length 12 ∧ path.get? i = some m) ∧
    ((potentialTargets path).find? (fun im => canWalk im.2.target) = some (i, m) →
      skipAhead canWalk path = path.drop i) ∧
    ((tick_execute_path (fun _ => false) position on_ground ⟨path, none, ctn⟩).path =
      path.dropWhile (fun m2 => is_reached m2.target position on_ground)) ∧
    (∀ m2 rest, (tick_execute_path (fun _ => false) position on_ground
        ⟨path, none, ctn⟩).path = m2 :: rest →
      is_reached m2.target position on_ground = false) ∧
    (can_walk_to_position physStep start_pos target = true ↔
      ∃ k, k < 20 ∧ BlockPos.fromVec3 (physStep k).1 = target ∧
        ∀ j ≤ k, (physStep j).1.y = start_pos.y ∧ (physStep j).2 = false) := by
  have hdrop : (tick_execute_path (fun _ => false) position on_ground
      ⟨path, none, ctn⟩).path =
      path.dropWhile (fun m2 => is_reached m2.target position on_ground) := by
    rw [tick_execute_path]
    exact tickExecuteGo_no_skip position on_ground path _ ctn (by simp)
  refine ⟨potentialTargets_mem path i m, skipAhead_found canWalk path i m, hdrop,
    ?_, ?_⟩
  · intro m2 rest h
    rw [hdrop] at h
    exact dropWhile_head_false _ path m2 rest h
  · rw [can_walk_to_position]
    rw [canWalkGo_iff physStep start_pos.y target 20 0]
    constructor
    · rintro ⟨j, hj, hblock, hall⟩
      rw [Nat.zero_add] at hblock
      refine ⟨j, hj, hblock, ?_⟩
      intro j2 hj2
      have h2 := hall j2 hj2
      rw [Nat.zero_add] at h2
      exact h2
    · rintro ⟨j, hj, hblock, hall⟩
      refine ⟨j, hj, ?_, ?_⟩
      · rw [Nat.zero_add]
        exact hblock
      · intro j2 hj2
        rw [Nat.zero_add]
        exact hall j2 hj2

/-- Witness for C6 at the concrete 13-movement path, a position away from every
target, and a constant physics step. -/
theorem C6_path_executor_witness :
    (((11 : Nat), (⟨⟨11, 0, 0⟩, ⟨false⟩⟩ : PathMovement)) ∈ potentialTargets cePath ↔
      2 ≤ 11 ∧ 11 < min cePath.length 12 ∧
        cePath.get? 11 = some ⟨⟨11, 0, 0⟩, ⟨false⟩⟩) ∧
    ((potentialTargets cePath).find?
        (fun im => ceCanWalk im.2.target) = some (11, ⟨⟨11, 0, 0⟩, ⟨false⟩⟩) →
      skipAhead ceCanWalk cePath = cePath.drop 11) ∧
    ((tick_execute_path (fun _ => false) ⟨100, 0, 0⟩ true ⟨cePath, none, none⟩).path =
      cePath.dropWhile (fun m2 => is_reached m2.target ⟨100, 0, 0⟩ true)) ∧
    (∀ m2 rest, (tick_execute_path (fun _ => false) ⟨100, 0, 0⟩ true
        ⟨cePath, none, none⟩).path = m2 :: rest →
      is_reached m2.target ⟨100, 0, 0⟩ true = false) ∧
    (can_walk_to_position (fun _ => (⟨0, 0, 0⟩, false)) ⟨0, 0, 0⟩ ⟨0, 0, 0⟩ = true ↔
      ∃ k, k < 20 ∧
        BlockPos.fromVec3 ((fun _ : Nat => ((⟨0, 0, 0⟩ : Vec3), false)) k).1 =
          ⟨0, 0, 0⟩ ∧
        ∀ j ≤ k, ((fun _ : Nat => ((⟨0, 0, 0⟩ : Vec3), false)) j).1.y =
            (⟨0, 0, 0⟩ : Vec3).y ∧
          ((fun _ : Nat => ((⟨0, 0, 0⟩ : Vec3), false)) j).2 = false) :=
  C6_path_executor ceCanWalk (fun _ => (⟨0, 0, 0⟩, false)) ⟨100, 0, 0⟩ ⟨0, 0, 0⟩ true
    cePath 11 ⟨⟨11, 0, 0⟩, ⟨false⟩⟩ none ⟨0, 0, 0⟩

/-- C6 counterexample to the skip range as claimed: with 13 path elements the
scan tries index 11 — `skip(2).take(10)` covers `[2, min(len, 12))`, not the
claim's `[2..min(len,10))` — and the executor indeed truncates the path at
index 11 when only that target is walkable. -/
theorem C6_path_executor_counterexample :
    ((11 : Nat), (⟨⟨11, 0, 0⟩, ⟨false⟩⟩ : PathMovement)) ∈ potentialTargets cePath ∧
    ¬ (11 < min cePath.length 10) ∧
    (tick_execute_path ceCanWalk ⟨100, 0, 0⟩ true ⟨cePath, none, none⟩).path =
      cePath.drop 11 ∧
    cePath.length = 13 := by
  refine ⟨by decide, by decide, by decide, by decide⟩
